import Mathlib

/-!
CORS plugin (`caddy/corsPlugin.go`): rule dispatch and Caddyfile parsing.

A shallow embedding of the two functions of the plugin, `Middleware.ServeHTTP`
and `Middleware.UnmarshalCaddyfile` (with `singleArg` and `parseCaddyfile`),
followed by the properties proved about them.

Conventions of the embedding.

* Go `string` is `String`; `error` is `Option String` (`none` is `nil`) and a
  function that returns `(T, error)` is an `Except String T`.  The message kept
  is the text handed to `c.Err`/`c.Errf`; the dispenser decorates it with the
  file and line of the token, which is not modelled.
* The token dispenser is seen through the structure the loops of
  `UnmarshalCaddyfile` impose on it: a list of top-level entries, each with the
  arguments `c.RemainingArgs()` returns for it and the lines of its block, each
  line being the token `c.Val()` and the arguments `c.RemainingArgs()` returns
  after it.
* `ServeHTTP` talks to the outside (collaborator, response writer, next
  handler) by calls only.  The response writer is an abstract state threaded
  through the calls, and every call is also recorded, in order, in a log.
* Go's `strings.ToLower` follows the Unicode case tables, which are not
  reproduced: `ServeHTTP` takes it as a parameter (a field of `Host`), so what
  is proved of `ServeHTTP` holds whatever the tables are.  Closed examples use
  `asciiToLower`, its restriction to ASCII strings, on ASCII strings only.
-/

namespace Cors

/-! ## Strings (`strings`, `strconv`) -/

/-- Lower-case mapping of one ASCII character: `A`..`Z` go to `a`..`z`, any
other character is returned as it is. -/
def asciiLowerRune (c : Char) : Char :=
  if 'A' ≤ c ∧ c ≤ 'Z' then Char.ofNat (c.toNat + 32) else c

/-- Go `strings.ToLower` on strings of ASCII characters, where it maps
`A`..`Z` to `a`..`z` and nothing else.  On other strings Go follows the
Unicode case tables and this function does not; it is applied to ASCII strings
only, in the closed examples. -/
def asciiToLower (s : String) : String :=
  String.mk (s.data.map asciiLowerRune)

/-- Go `strings.HasPrefix s pfx`: `s` begins with `pfx`. -/
def HasPrefix (s pfx : String) : Bool :=
  pfx.data.isPrefixOf s.data

/-- Pieces of a character list between the occurrences of `sep`. -/
def splitChars (sep : Char) : List Char → List (List Char)
  | [] => [[]]
  | c :: cs =>
    if c = sep then [] :: splitChars sep cs
    else
      match splitChars sep cs with
      | [] => [[c]]
      | p :: ps => (c :: p) :: ps

/-- Go `strings.Split s sep` for a separator of one character (the plugin only
splits at `","`): all the pieces, empty ones included; never the empty list. -/
def Split (s : String) (sep : Char) : List String :=
  (splitChars sep s.data).map String.mk

/-- Value of a decimal digit, `none` for any other character
(`ch -= '0'; if ch > 9` in `strconv`). -/
def digitVal (c : Char) : Option Nat :=
  if '0' ≤ c ∧ c ≤ '9' then some (c.toNat - '0'.toNat) else none

/-- The digit loop of `strconv.Atoi`: `n = n*10 + int(ch)` from the left, with
failure at the first character that is not a digit. -/
def parseDigits : List Char → Nat → Option Nat
  | [], n => some n
  | c :: cs, n =>
    match digitVal c with
    | none => none
    | some d => parseDigits cs (n * 10 + d)

/-- Go `strconv.Atoi` for an `int` of `intSize` bits: an optional sign, at
least one digit, nothing else, and a value that fits; the errors are
`ErrSyntax` and `ErrRange`. -/
def Atoi (intSize : Nat) (s : String) : Except String Int :=
  match s.data with
  | [] => .error "invalid syntax"
  | c0 :: rest =>
    let body := if c0 = '-' ∨ c0 = '+' then rest else c0 :: rest
    if body = [] then .error "invalid syntax"
    else
      match parseDigits body 0 with
      | none => .error "invalid syntax"
      | some n =>
        if c0 = '-' then
          if n ≤ 2 ^ (intSize - 1) then .ok (-(n : Int)) else .error "value out of range"
        else
          if n < 2 ^ (intSize - 1) then .ok (n : Int) else .error "value out of range"

/-! ## Data model -/

/-- Go `error`. -/
abbrev error := Option String

/-- A compiled regular expression (`*regexp.Regexp`), kept as its source text. -/
structure Regexp where
  expr : String
deriving DecidableEq, Repr

/-- Modelled from the spec: the collaborator's `cors.Config` type, whose
declaration is in the `cors` package and not in the plugin; the fields are the
ones the plugin reads or sets (spec section 6).  `AllowCredentials` is a
`*bool`: `none` is the nil pointer. -/
structure Config where
  AllowedOrigins : List String
  OriginRegexps : List Regexp
  AllowedMethods : String
  AllowCredentials : Option Bool
  MaxAge : Int
  AllowedHeaders : String
  ExposedHeaders : String
deriving DecidableEq, Repr

/-- Go `CorsRule` stores the parsed rules. -/
structure CorsRule where
  Conf : Config
  Path : String
deriving DecidableEq, Repr

/-- Go `Middleware`: the handler, holding the rules in declaration order. -/
structure Middleware where
  Rules : List CorsRule
deriving DecidableEq, Repr

/-- Go `url.URL`, reduced to the field the plugin reads. -/
structure URL where
  Path : String
deriving DecidableEq, Repr

/-- Go `http.Request`: the method and headers are what the collaborator looks at,
the plugin itself reads `URL.Path` only. -/
structure Request where
  Method : String
  URL : URL
  Header : List (String × String)
deriving DecidableEq, Repr

/-! ## Request dispatch -/

/-- One call `ServeHTTP` makes to the outside. -/
inductive Call where
  | HandleRequest (conf : Config)
  | WriteHeader (status : Nat)
  | next
deriving DecidableEq, Repr

/-- What `ServeHTTP` is handed and what it calls: the library function
`strings.ToLower`, the collaborator (`Config.HandleRequest`,
`cors.IsPreflight`), the response writer's `WriteHeader` and the next handler
of the pipeline.  `W` is the state of the response writer. -/
structure Host (W : Type) where
  ToLower : String → String
  HandleRequest : Config → W → Request → W
  IsPreflight : Request → Bool
  WriteHeader : W → Nat → W
  next : W → Request → W × error

/-- Result of one `ServeHTTP`: the calls made, in order, the response writer
afterwards and the returned error. -/
structure Outcome (W : Type) where
  calls : List Call
  w : W
  err : error
deriving DecidableEq, Repr

/-- The body of `ServeHTTP` from the `for _, rule := range m.Rules` loop on,
for the rules not yet visited. -/
def ServeHTTP.scan {W : Type} (h : Host W) (w : W) (r : Request) :
    List CorsRule → Outcome W
  | [] =>
    let res := h.next w r
    { calls := [Call.next], w := res.1, err := res.2 }
  | rule :: rest =>
    if HasPrefix (h.ToLower r.URL.Path) rule.Path then
      let w1 := h.HandleRequest rule.Conf w r
      if h.IsPreflight r then
        { calls := [Call.HandleRequest rule.Conf, Call.WriteHeader 200],
          w := h.WriteHeader w1 200, err := none }
      else
        let res := h.next w1 r
        { calls := [Call.HandleRequest rule.Conf, Call.next], w := res.1, err := res.2 }
    else ServeHTTP.scan h w r rest

/-- Go `Middleware.ServeHTTP`. -/
def ServeHTTP {W : Type} (h : Host W) (m : Middleware) (w : W) (r : Request) : Outcome W :=
  ServeHTTP.scan h w r m.Rules

/-- The configurations passed to `HandleRequest` in a log, in order. -/
def handled : List Call → List Config
  | [] => []
  | Call.HandleRequest conf :: cs => conf :: handled cs
  | _ :: cs => handled cs

/-! ## Caddyfile parsing -/

/-- One line of a block: the token `c.Val()` and the arguments after it. -/
structure Directive where
  name : String
  args : List String
deriving DecidableEq, Repr

/-- One top-level entry: its arguments and the lines of its block. -/
structure Entry where
  args : List String
  block : List Directive
deriving DecidableEq, Repr

/-- What the parser takes from outside the plugin: the collaborator's
`cors.Default()` (a fresh configuration at every call), `regexp.Compile`, and
the width of `int`. -/
structure Deps where
  Default : Config
  Compile : String → Except String Regexp
  intSize : Nat

/-- The rule under construction together with the local `anyOrigins`. -/
structure Building where
  rule : CorsRule
  anyOrigins : Bool
deriving DecidableEq, Repr

/-- Go `singleArg`, on the arguments `c.RemainingArgs()` returns. -/
def singleArg (args : List String) (desc : String) : Except String String :=
  match args with
  | [a] => .ok a
  | _ => .error (desc ++ " expects exactly one argument")

/-- The statement `rule.Conf.AllowedOrigins = append(rule.Conf.AllowedOrigins,
strings.Split(x, ",")...)`. -/
def appendOrigins (rule : CorsRule) (x : String) : CorsRule :=
  { rule with Conf := { rule.Conf with
      AllowedOrigins := rule.Conf.AllowedOrigins ++ Split x ',' } }

/-- The statement `rule.Conf.AllowedOrigins = nil`. -/
def clearOrigins (rule : CorsRule) : CorsRule :=
  { rule with Conf := { rule.Conf with AllowedOrigins := [] } }

/-- One turn of the loop `for i := 1; i < len(args); i++`. -/
def positional (st : Building) (arg : String) : Building :=
  let rule := if !st.anyOrigins then clearOrigins st.rule else st.rule
  { rule := appendOrigins rule arg, anyOrigins := true }

/-- One turn of the loop `for c.NextBlock(0)`: the `switch c.Val()`. -/
def directive (E : Deps) (st : Building) (d : Directive) : Except String Building :=
  if d.name = "origin" then
    let rule := if !st.anyOrigins then clearOrigins st.rule else st.rule
    .ok { rule := d.args.foldl appendOrigins rule, anyOrigins := true }
  else if d.name = "origin_regexp" then
    match singleArg d.args "origin_regexp" with
    | .error e => .error e
    | .ok arg =>
      match E.Compile arg with
      | .error e => .error ("could no compile regexp: " ++ e)
      | .ok r =>
        let st1 : Building :=
          if !st.anyOrigins then { rule := clearOrigins st.rule, anyOrigins := true } else st
        .ok { st1 with rule := { st1.rule with Conf := { st1.rule.Conf with
                OriginRegexps := st1.rule.Conf.OriginRegexps ++ [r] } } }
  else if d.name = "methods" then
    match singleArg d.args "methods" with
    | .error e => .error e
    | .ok arg =>
      .ok { st with rule := { st.rule with Conf := { st.rule.Conf with AllowedMethods := arg } } }
  else if d.name = "allow_credentials" then
    match singleArg d.args "allow_credentials" with
    | .error e => .error e
    | .ok arg =>
      if arg = "true" then
        .ok { st with rule := { st.rule with Conf := { st.rule.Conf with
                AllowCredentials := some true } } }
      else if arg ≠ "false" then .error "allow_credentials must be true or false."
      else
        .ok { st with rule := { st.rule with Conf := { st.rule.Conf with
                AllowCredentials := some false } } }
  else if d.name = "max_age" then
    match singleArg d.args "max_age" with
    | .error e => .error e
    | .ok arg =>
      match Atoi E.intSize arg with
      | .error _ => .error "max_age must be valid int"
      | .ok i =>
        .ok { st with rule := { st.rule with Conf := { st.rule.Conf with MaxAge := i } } }
  else if d.name = "allowed_headers" then
    match singleArg d.args "allowed_headers" with
    | .error e => .error e
    | .ok arg =>
      .ok { st with rule := { st.rule with Conf := { st.rule.Conf with AllowedHeaders := arg } } }
  else if d.name = "exposed_headers" then
    match singleArg d.args "exposed_headers" with
    | .error e => .error e
    | .ok arg =>
      .ok { st with rule := { st.rule with Conf := { st.rule.Conf with ExposedHeaders := arg } } }
  else .error ("Unknown cors config item: " ++ d.name)

/-- The loop `for c.NextBlock(0)` over the lines of a block, stopping at the
first error. -/
def block (E : Deps) : Building → List Directive → Except String Building
  | st, [] => .ok st
  | st, d :: ds =>
    match directive E st d with
    | .error e => .error e
    | .ok st1 => block E st1 ds

/-- The state before the block: the fresh rule with the path and the
positional origins of the entry. -/
def start (E : Deps) (e : Entry) : Building :=
  let rule : CorsRule := { Path := "/", Conf := E.Default }
  let rule := match e.args with
    | [] => rule
    | a :: _ => { rule with Path := a }
  (e.args.drop 1).foldl positional { rule := rule, anyOrigins := false }

/-- The body of the loop `for c.Next()`: the rule of one entry, or the error
that ends the parsing. -/
def entry (E : Deps) (e : Entry) : Except String CorsRule :=
  match block E (start E e) e.block with
  | .error err => .error err
  | .ok st => .ok st.rule

/-- Go `Middleware.UnmarshalCaddyfile`: the receiver afterwards and the error
returned. -/
def UnmarshalCaddyfile (E : Deps) : Middleware → List Entry → Middleware × error
  | m, [] => (m, none)
  | m, e :: es =>
    match entry E e with
    | .error err => (m, some err)
    | .ok rule => UnmarshalCaddyfile E { Rules := m.Rules ++ [rule] } es

/-- Go `parseCaddyfile`: unmarshal into a new `Middleware`. -/
def parseCaddyfile (E : Deps) (c : List Entry) : Middleware × error :=
  UnmarshalCaddyfile E { Rules := [] } c

/-! ## Sample values -/

/-- A sample of the outside for the parser: a permissive default
configuration, a `regexp.Compile` that rejects only the pattern `"("`, and a
64-bit `int`. -/
def sampleDeps : Deps where
  Default :=
    { AllowedOrigins := ["*"], OriginRegexps := [],
      AllowedMethods := "POST,GET,OPTIONS,PUT,DELETE", AllowCredentials := none,
      MaxAge := 0, AllowedHeaders := "", ExposedHeaders := "" }
  Compile := fun s => if s = "(" then .error "missing closing )" else .ok { expr := s }
  intSize := 64

/-- A sample host whose response writer is the list of status codes written
and the names of the stages that ran; preflight is an `OPTIONS` request; the
lower-casing is that of ASCII strings, the requests of the examples having
ASCII paths. -/
def sampleHost : Host (List String) where
  ToLower := asciiToLower
  HandleRequest := fun _ w _ => w ++ ["cors"]
  IsPreflight := fun r => r.Method == "OPTIONS"
  WriteHeader := fun w status => w ++ [toString status]
  next := fun w _ => (w ++ ["next"], some "from next")

/-- A lower-casing that, besides the ASCII letters, maps the capital `É` to
`é`, as the Unicode tables do. -/
def accentToLower (s : String) : String :=
  String.mk ((asciiToLower s).data.map (fun c => if c = 'É' then 'é' else c))

/-- The sample host with the lower-casing `accentToLower`. -/
def accentHost : Host (List String) :=
  { sampleHost with ToLower := accentToLower }

/-- A configuration that differs from the default by its methods. -/
def confOf (methods : String) : Config :=
  { sampleDeps.Default with AllowedMethods := methods }

/-- A `GET`/`OPTIONS`/... request for a path. -/
def request (method path : String) : Request :=
  { Method := method, URL := { Path := path }, Header := [] }

/-! ## Specification-side notions -/

/-- Value of a string of decimal digits, digit by position: the first of
`k + 1` digits counts `10 ^ k` times. -/
def decimalValue : List Char → Nat
  | [] => 0
  | c :: cs => (c.toNat - '0'.toNat) * 10 ^ cs.length + decimalValue cs

/-- The string `s` is a base-10 integer literal denoting `v`, an `int` of
`intSize` bits: an optional sign `+` or `-`, then one or more decimal digits
and nothing else, with `v` the signed value of the digits and
`-2^(intSize-1) ≤ v < 2^(intSize-1)`. -/
def IsIntLiteral (intSize : Nat) (s : String) (v : Int) : Prop :=
  ∃ sign digits : List Char,
    s.data = sign ++ digits
    ∧ (sign = [] ∨ sign = ['+'] ∨ sign = ['-'])
    ∧ digits ≠ []
    ∧ (∀ c ∈ digits, '0' ≤ c ∧ c ≤ '9')
    ∧ v = (if sign = ['-'] then -(decimalValue digits : Int) else (decimalValue digits : Int))
    ∧ -(2 ^ (intSize - 1) : Int) ≤ v ∧ v < (2 ^ (intSize - 1) : Int)

/-- The origin arguments of an entry in order of appearance: the positional
arguments after the first, then the arguments of every `origin` line of the
block. -/
def originArgs (e : Entry) : List String :=
  e.args.drop 1 ++ (e.block.filter (fun d => d.name = "origin")).flatMap (fun d => d.args)

/-- The literal origins an entry spells out: the comma-split pieces of its
origin arguments, concatenated in order. -/
def statedOrigins (e : Entry) : List String :=
  (originArgs e).flatMap (fun x => Split x ',')

/-- The literal origins gathered so far by a rule under construction: none
while `anyOrigins` is unset (the list then still holds the defaults). -/
def gathered (st : Building) : List String :=
  if st.anyOrigins then st.rule.Conf.AllowedOrigins else []

/-- The directive names the `switch` of `UnmarshalCaddyfile` has a case for. -/
def knownDirectives : List String :=
  ["origin", "origin_regexp", "methods", "allow_credentials", "max_age",
   "allowed_headers", "exposed_headers"]

/-- The directive names whose case of the `switch` calls `singleArg`. -/
def singleArgDirectives : List String :=
  ["origin_regexp", "methods", "allow_credentials", "max_age", "allowed_headers",
   "exposed_headers"]

/-- What a line of a block that parses does to the rule under construction,
with the values it has read from its arguments. -/
inductive Effect where
  | origin (args : List String)
  | originRegexp (r : Regexp)
  | methods (arg : String)
  | allowCredentials (b : Bool)
  | maxAge (i : Int)
  | allowedHeaders (arg : String)
  | exposedHeaders (arg : String)
deriving DecidableEq, Repr

/-- The directive name an effect belongs to. -/
def Effect.name : Effect → String
  | .origin _ => "origin"
  | .originRegexp _ => "origin_regexp"
  | .methods _ => "methods"
  | .allowCredentials _ => "allow_credentials"
  | .maxAge _ => "max_age"
  | .allowedHeaders _ => "allowed_headers"
  | .exposedHeaders _ => "exposed_headers"

/-- The state after an effect, as the matching case of the `switch` leaves it. -/
def Effect.apply (st : Building) : Effect → Building
  | .origin args =>
    { rule := args.foldl appendOrigins
        (if !st.anyOrigins then clearOrigins st.rule else st.rule),
      anyOrigins := true }
  | .originRegexp r =>
    { rule := { (if !st.anyOrigins then clearOrigins st.rule else st.rule) with
        Conf := { (if !st.anyOrigins then clearOrigins st.rule else st.rule).Conf with
          OriginRegexps := st.rule.Conf.OriginRegexps ++ [r] } },
      anyOrigins := true }
  | .methods arg =>
    { st with rule := { st.rule with Conf := { st.rule.Conf with AllowedMethods := arg } } }
  | .allowCredentials b =>
    { st with rule := { st.rule with Conf := { st.rule.Conf with AllowCredentials := some b } } }
  | .maxAge i =>
    { st with rule := { st.rule with Conf := { st.rule.Conf with MaxAge := i } } }
  | .allowedHeaders arg =>
    { st with rule := { st.rule with Conf := { st.rule.Conf with AllowedHeaders := arg } } }
  | .exposedHeaders arg =>
    { st with rule := { st.rule with Conf := { st.rule.Conf with ExposedHeaders := arg } } }

/-- The line `d` is well-formed and reads as the effect `eff`: its name has a
case in the `switch`, the arity and the argument are as that case demands. -/
def reads (E : Deps) (d : Directive) : Effect → Prop
  | .origin args => d.name = "origin" ∧ d.args = args
  | .originRegexp r => d.name = "origin_regexp" ∧ ∃ arg, d.args = [arg] ∧ E.Compile arg = .ok r
  | .methods arg => d.name = "methods" ∧ d.args = [arg]
  | .allowCredentials b =>
    d.name = "allow_credentials"
      ∧ ∃ arg, d.args = [arg] ∧ (arg = "true" ∨ arg = "false") ∧ b = decide (arg = "true")
  | .maxAge i => d.name = "max_age" ∧ ∃ arg, d.args = [arg] ∧ Atoi E.intSize arg = .ok i
  | .allowedHeaders arg => d.name = "allowed_headers" ∧ d.args = [arg]
  | .exposedHeaders arg => d.name = "exposed_headers" ∧ d.args = [arg]

/-! ## Dispatch: auxiliary facts -/

theorem scan_none {W : Type} (h : Host W) (w : W) (r : Request) (rules : List CorsRule)
    (hno : ∀ rule ∈ rules, HasPrefix (h.ToLower r.URL.Path) rule.Path = false) :
    ServeHTTP.scan h w r rules
      = { calls := [Call.next], w := (h.next w r).1, err := (h.next w r).2 } := by
  induction rules with
  | nil => rfl
  | cons rule rest ih =>
    have h1 : HasPrefix (h.ToLower r.URL.Path) rule.Path = false :=
      hno rule (List.mem_cons_self _ _)
    have h2 : ∀ x ∈ rest, HasPrefix (h.ToLower r.URL.Path) x.Path = false :=
      fun x hx => hno x (List.mem_cons_of_mem _ hx)
    simp [ServeHTTP.scan, h1, ih h2]

theorem scan_skip {W : Type} (h : Host W) (w : W) (r : Request) (pre rest : List CorsRule)
    (hno : ∀ rule ∈ pre, HasPrefix (h.ToLower r.URL.Path) rule.Path = false) :
    ServeHTTP.scan h w r (pre ++ rest) = ServeHTTP.scan h w r rest := by
  induction pre with
  | nil => rfl
  | cons rule pre ih =>
    have h1 : HasPrefix (h.ToLower r.URL.Path) rule.Path = false :=
      hno rule (List.mem_cons_self _ _)
    have h2 : ∀ x ∈ pre, HasPrefix (h.ToLower r.URL.Path) x.Path = false :=
      fun x hx => hno x (List.mem_cons_of_mem _ hx)
    simp [ServeHTTP.scan, h1, ih h2]

theorem scan_hit {W : Type} (h : Host W) (w : W) (r : Request) (rule : CorsRule)
    (post : List CorsRule) (hm : HasPrefix (h.ToLower r.URL.Path) rule.Path = true) :
    ServeHTTP.scan h w r (rule :: post)
      = if h.IsPreflight r then
          { calls := [Call.HandleRequest rule.Conf, Call.WriteHeader 200],
            w := h.WriteHeader (h.HandleRequest rule.Conf w r) 200, err := none }
        else
          { calls := [Call.HandleRequest rule.Conf, Call.next],
            w := (h.next (h.HandleRequest rule.Conf w r) r).1,
            err := (h.next (h.HandleRequest rule.Conf w r) r).2 } := by
  simp [ServeHTTP.scan, hm]

/-- A rule path with an upper-case letter against a request path that differs
from it by case only: whenever the lower-casing maps `/API/X` to `/api/x`, as
`strings.ToLower` does, the rule `/Api` is passed over. -/
theorem scan_mixed_case {W : Type} (h : Host W) (w : W) (conf : Config) (method : String)
    (header : List (String × String)) (hlow : h.ToLower "/API/X" = "/api/x") :
    ServeHTTP.scan h w ⟨method, ⟨"/API/X"⟩, header⟩ [CorsRule.mk conf "/Api"]
      = { calls := [Call.next], w := (h.next w ⟨method, ⟨"/API/X"⟩, header⟩).1,
          err := (h.next w ⟨method, ⟨"/API/X"⟩, header⟩).2 } := by
  have hp : HasPrefix "/api/x" "/Api" = false := by decide
  simp [ServeHTTP.scan, hlow, hp]

/-- Paths outside ASCII: with a lower-casing that maps `É` to `é`, the request
path `/É/x` is matched by the rule `/é` and passed over by the rule `/É`. -/
theorem scan_accented :
    (ServeHTTP accentHost ⟨[CorsRule.mk (confOf "a") "/é"]⟩ [] (request "GET" "/É/x")).calls
        = [Call.HandleRequest (confOf "a"), Call.next]
    ∧ (ServeHTTP accentHost ⟨[CorsRule.mk (confOf "a") "/É"]⟩ [] (request "GET" "/É/x")).calls
        = [Call.next] := by
  decide

theorem first_split {α : Type} (p : α → Bool) (xs : List α) (hex : ∃ x ∈ xs, p x = true) :
    ∃ pre x post, xs = pre ++ x :: post ∧ (∀ y ∈ pre, p y = false) ∧ p x = true := by
  induction xs with
  | nil => obtain ⟨x, hx, _⟩ := hex; cases hx
  | cons a as ih =>
    by_cases ha : p a = true
    · exact ⟨[], a, as, rfl, by simp, ha⟩
    · have hex2 : ∃ x ∈ as, p x = true := by
        obtain ⟨x, hx, hpx⟩ := hex
        rcases List.mem_cons.mp hx with rfl | hx
        · exact absurd hpx ha
        · exact ⟨x, hx, hpx⟩
      obtain ⟨pre, x, post, hxs, hpre, hx⟩ := ih hex2
      refine ⟨a :: pre, x, post, by simp [hxs], ?_, hx⟩
      intro y hy
      rcases List.mem_cons.mp hy with rfl | hy
      · simpa using ha
      · exact hpre y hy

/-! ## Dispatch: the claims -/

/-- C1: when some rule's path is a prefix of the lower-cased request path,
`ServeHTTP` calls `HandleRequest` exactly once, with the configuration of the
earliest such rule of the list: the rules split as `pre ++ rule :: post` with
no match in `pre`, and the log of handled configurations is `[rule.Conf]`
whatever `post` holds.  The lower-casing is the host's `ToLower`, any function
of strings. -/
theorem serveHTTP_first_match_only {W : Type} (h : Host W) (m : Middleware) (w : W)
    (r : Request)
    (hex : ∃ rule ∈ m.Rules, HasPrefix (h.ToLower r.URL.Path) rule.Path = true) :
    ∃ pre rule post, m.Rules = pre ++ rule :: post
      ∧ (∀ x ∈ pre, HasPrefix (h.ToLower r.URL.Path) x.Path = false)
      ∧ HasPrefix (h.ToLower r.URL.Path) rule.Path = true
      ∧ handled (ServeHTTP h m w r).calls = [rule.Conf] := by
  obtain ⟨pre, rule, post, hsplit, hpre, hrule⟩ :=
    first_split (fun x => HasPrefix (h.ToLower r.URL.Path) x.Path) m.Rules hex
  refine ⟨pre, rule, post, hsplit, hpre, hrule, ?_⟩
  unfold ServeHTTP
  rw [hsplit, scan_skip h w r pre _ hpre, scan_hit h w r rule post hrule]
  cases h.IsPreflight r <;> simp [handled]

/-- Witness of C1: rules at `/api` and `/`, request `/api/users`: the only
configuration handled is that of `/api`. -/
theorem serveHTTP_first_match_only_witness :
    (∃ rule ∈ [CorsRule.mk (confOf "a") "/api", CorsRule.mk (confOf "b") "/"],
        HasPrefix (sampleHost.ToLower (request "GET" "/api/users").URL.Path) rule.Path = true)
    ∧ handled (ServeHTTP sampleHost
          ⟨[CorsRule.mk (confOf "a") "/api", CorsRule.mk (confOf "b") "/"]⟩ []
          (request "GET" "/api/users")).calls = [confOf "a"]
    ∧ ∃ pre rule post,
        (Middleware.mk [CorsRule.mk (confOf "a") "/api", CorsRule.mk (confOf "b") "/"]).Rules
          = pre ++ rule :: post
        ∧ (∀ x ∈ pre, HasPrefix (sampleHost.ToLower (request "GET" "/api/users").URL.Path) x.Path = false)
        ∧ HasPrefix (sampleHost.ToLower (request "GET" "/api/users").URL.Path) rule.Path = true
        ∧ handled (ServeHTTP sampleHost
            ⟨[CorsRule.mk (confOf "a") "/api", CorsRule.mk (confOf "b") "/"]⟩ []
            (request "GET" "/api/users")).calls = [rule.Conf] :=
  ⟨⟨CorsRule.mk (confOf "a") "/api", by decide, by decide⟩, by decide,
   serveHTTP_first_match_only sampleHost
    ⟨[CorsRule.mk (confOf "a") "/api", CorsRule.mk (confOf "b") "/"]⟩ []
    (request "GET" "/api/users") ⟨CorsRule.mk (confOf "a") "/api", by decide, by decide⟩⟩


/-- C2, at the failing input: the rule path `/Api` is, lower-cased, a prefix of
the lower-cased request path `/API/X`, and yet `ServeHTTP` does not match the
rule: the collaborator is not called and the request goes straight to the next
handler.  The request path is lower-cased, the rule path is compared as
stored.  The strings are ASCII, where `strings.ToLower` is `asciiToLower`;
`scan_mixed_case` is the same fact for every lower-casing that maps `/API/X`
to `/api/x`. -/
theorem serveHTTP_mixed_case_rule_unmatched :
    HasPrefix (asciiToLower "/API/X") (asciiToLower "/Api") = true
    ∧ HasPrefix (asciiToLower "/API/X") "/Api" = false
    ∧ (ServeHTTP sampleHost ⟨[CorsRule.mk (confOf "a") "/Api"]⟩ []
        (request "GET" "/API/X")).calls = [Call.next]
    ∧ handled (ServeHTTP sampleHost ⟨[CorsRule.mk (confOf "a") "/Api"]⟩ []
        (request "GET" "/API/X")).calls = [] := by
  decide

/-- C3: `ServeHTTP` calls the next handler exactly once, except when a rule
matched and the collaborator classifies the request as preflight; then it calls
`HandleRequest` and `WriteHeader(200)` and nothing else, leaves the response
writer as `WriteHeader` left it, returns `nil`, and calls the next handler zero
times.  A preflight request that matches no rule is forwarded once.  The
lower-casing is the host's `ToLower`, any function of strings. -/
theorem serveHTTP_next_once_unless_preflight {W : Type} (h : Host W) (m : Middleware)
    (w : W) (r : Request) :
    (((∃ rule ∈ m.Rules, HasPrefix (h.ToLower r.URL.Path) rule.Path = true)
        ∧ h.IsPreflight r = true) →
      (ServeHTTP h m w r).calls.count Call.next = 0
      ∧ (ServeHTTP h m w r).err = none
      ∧ ∃ conf, (ServeHTTP h m w r).calls = [Call.HandleRequest conf, Call.WriteHeader 200]
          ∧ (ServeHTTP h m w r).w = h.WriteHeader (h.HandleRequest conf w r) 200)
    ∧ (¬ ((∃ rule ∈ m.Rules, HasPrefix (h.ToLower r.URL.Path) rule.Path = true)
        ∧ h.IsPreflight r = true) →
      (ServeHTTP h m w r).calls.count Call.next = 1) := by
  constructor
  · rintro ⟨hex, hpre⟩
    obtain ⟨pre, rule, post, hsplit, hno, hrule⟩ :=
      first_split (fun x => HasPrefix (h.ToLower r.URL.Path) x.Path) m.Rules hex
    have hs : ServeHTTP h m w r
        = { calls := [Call.HandleRequest rule.Conf, Call.WriteHeader 200],
            w := h.WriteHeader (h.HandleRequest rule.Conf w r) 200, err := none } := by
      unfold ServeHTTP
      rw [hsplit, scan_skip h w r pre _ hno, scan_hit h w r rule post hrule, if_pos hpre]
    rw [hs]
    exact ⟨by simp, rfl, rule.Conf, rfl, rfl⟩
  · intro hnot
    by_cases hex : ∃ rule ∈ m.Rules, HasPrefix (h.ToLower r.URL.Path) rule.Path = true
    · have hpre : h.IsPreflight r = false := by
        cases hp : h.IsPreflight r
        · rfl
        · exact absurd ⟨hex, hp⟩ hnot
      obtain ⟨pre, rule, post, hsplit, hno, hrule⟩ :=
        first_split (fun x => HasPrefix (h.ToLower r.URL.Path) x.Path) m.Rules hex
      unfold ServeHTTP
      rw [hsplit, scan_skip h w r pre _ hno, scan_hit h w r rule post hrule]
      simp [hpre]
    · have hno : ∀ rule ∈ m.Rules, HasPrefix (h.ToLower r.URL.Path) rule.Path = false := by
        intro rule hrule
        cases hp : HasPrefix (h.ToLower r.URL.Path) rule.Path
        · rfl
        · exact absurd ⟨rule, hrule, hp⟩ hex
      unfold ServeHTTP
      rw [scan_none h w r m.Rules hno]
      simp

/-- Witness of C3: an `OPTIONS` request for `/api/users` under the rule `/api`
is answered with 200 and not forwarded; the same request under the rule
`/admin` only, which does not match, is forwarded once. -/
theorem serveHTTP_next_once_unless_preflight_witness :
    ((ServeHTTP sampleHost ⟨[CorsRule.mk (confOf "a") "/api"]⟩ []
          (request "OPTIONS" "/api/users")).calls.count Call.next = 0
      ∧ (ServeHTTP sampleHost ⟨[CorsRule.mk (confOf "a") "/api"]⟩ []
          (request "OPTIONS" "/api/users")).err = none
      ∧ ∃ conf, (ServeHTTP sampleHost ⟨[CorsRule.mk (confOf "a") "/api"]⟩ []
            (request "OPTIONS" "/api/users")).calls
            = [Call.HandleRequest conf, Call.WriteHeader 200]
          ∧ (ServeHTTP sampleHost ⟨[CorsRule.mk (confOf "a") "/api"]⟩ []
            (request "OPTIONS" "/api/users")).w
            = sampleHost.WriteHeader
                (sampleHost.HandleRequest conf [] (request "OPTIONS" "/api/users")) 200)
    ∧ sampleHost.IsPreflight (request "OPTIONS" "/api/users") = true
    ∧ (ServeHTTP sampleHost ⟨[CorsRule.mk (confOf "a") "/admin"]⟩ []
          (request "OPTIONS" "/api/users")).calls.count Call.next = 1 :=
  ⟨(serveHTTP_next_once_unless_preflight sampleHost ⟨[CorsRule.mk (confOf "a") "/api"]⟩ []
      (request "OPTIONS" "/api/users")).1
      ⟨⟨CorsRule.mk (confOf "a") "/api", by decide, by decide⟩, by decide⟩,
   by decide,
   (serveHTTP_next_once_unless_preflight sampleHost ⟨[CorsRule.mk (confOf "a") "/admin"]⟩ []
      (request "OPTIONS" "/api/users")).2 (by decide)⟩

/-- C4: when no rule's path is a prefix of the lower-cased request path (in
particular when there is no rule), `ServeHTTP` makes one call, to the next
handler, on the response writer and request it was given, and its result is the
result of that call: `HandleRequest` is not called and no status is written.
The lower-casing is the host's `ToLower`, any function of strings. -/
theorem serveHTTP_no_match_pass_through {W : Type} (h : Host W) (m : Middleware) (w : W)
    (r : Request)
    (hno : ∀ rule ∈ m.Rules, HasPrefix (h.ToLower r.URL.Path) rule.Path = false) :
    ServeHTTP h m w r = { calls := [Call.next], w := (h.next w r).1, err := (h.next w r).2 }
    ∧ handled (ServeHTTP h m w r).calls = []
    ∧ (∀ status, Call.WriteHeader status ∉ (ServeHTTP h m w r).calls)
    ∧ ((ServeHTTP h m w r).w, (ServeHTTP h m w r).err) = h.next w r := by
  have hs : ServeHTTP h m w r
      = { calls := [Call.next], w := (h.next w r).1, err := (h.next w r).2 } := by
    unfold ServeHTTP
    exact scan_none h w r m.Rules hno
  rw [hs]
  refine ⟨rfl, rfl, ?_, rfl⟩
  intro status hmem
  simp at hmem

/-- Witness of C4: the only rule is `/admin` and the request is for `/public`. -/
theorem serveHTTP_no_match_pass_through_witness :
    (∀ rule ∈ (Middleware.mk [CorsRule.mk (confOf "a") "/admin"]).Rules,
        HasPrefix (sampleHost.ToLower (request "GET" "/public").URL.Path) rule.Path = false)
    ∧ ServeHTTP sampleHost ⟨[CorsRule.mk (confOf "a") "/admin"]⟩ [] (request "GET" "/public")
        = { calls := [Call.next], w := ["next"], err := some "from next" } :=
  ⟨by decide,
   (serveHTTP_no_match_pass_through sampleHost ⟨[CorsRule.mk (confOf "a") "/admin"]⟩ []
      (request "GET" "/public") (by decide)).1⟩

/-! ## `strconv.Atoi`: auxiliary facts -/

theorem parseDigits_some (cs : List Char) (acc : Nat) (hd : ∀ c ∈ cs, '0' ≤ c ∧ c ≤ '9') :
    parseDigits cs acc = some (acc * 10 ^ cs.length + decimalValue cs) := by
  induction cs generalizing acc with
  | nil => simp [parseDigits, decimalValue]
  | cons c cs ih =>
    have hc := hd c (List.mem_cons_self _ _)
    have hcs : ∀ x ∈ cs, '0' ≤ x ∧ x ≤ '9' := fun x hx => hd x (List.mem_cons_of_mem _ hx)
    simp only [parseDigits, digitVal, hc, and_self, if_true, ih _ hcs, decimalValue,
      List.length_cons]
    congr 1
    ring

theorem parseDigits_digits (cs : List Char) (acc n : Nat) (h : parseDigits cs acc = some n) :
    ∀ c ∈ cs, '0' ≤ c ∧ c ≤ '9' := by
  induction cs generalizing acc with
  | nil => intro c hc; cases hc
  | cons c cs ih =>
    by_cases hc : '0' ≤ c ∧ c ≤ '9'
    · simp only [parseDigits, digitVal, hc, and_self, if_true] at h
      intro x hx
      rcases List.mem_cons.mp hx with rfl | hx
      · exact hc
      · exact ih _ h x hx
    · simp [parseDigits, digitVal, hc] at h

theorem digit_not_sign (c : Char) (hc : '0' ≤ c ∧ c ≤ '9') : ¬ (c = '-' ∨ c = '+') := by
  rintro (rfl | rfl)
  · exact absurd hc.1 (by decide)
  · exact absurd hc.1 (by decide)

theorem Atoi_unfold (intSize : Nat) (s : String) (c0 : Char) (rest : List Char)
    (hs : s.data = c0 :: rest) :
    Atoi intSize s =
      if (if c0 = '-' ∨ c0 = '+' then rest else c0 :: rest) = [] then .error "invalid syntax"
      else
        match parseDigits (if c0 = '-' ∨ c0 = '+' then rest else c0 :: rest) 0 with
        | none => .error "invalid syntax"
        | some n =>
          if c0 = '-' then
            if n ≤ 2 ^ (intSize - 1) then .ok (-(n : Int)) else .error "value out of range"
          else
            if n < 2 ^ (intSize - 1) then .ok (n : Int) else .error "value out of range" := by
  unfold Atoi
  rw [hs]

theorem Atoi_signed (intSize : Nat) (s : String) (c0 : Char) (digits : List Char)
    (hs : s.data = c0 :: digits) (hc0 : c0 = '-' ∨ c0 = '+') (hne : digits ≠ [])
    (hd : ∀ c ∈ digits, '0' ≤ c ∧ c ≤ '9') :
    Atoi intSize s =
      if c0 = '-' then
        if decimalValue digits ≤ 2 ^ (intSize - 1) then .ok (-(decimalValue digits : Int))
        else .error "value out of range"
      else
        if decimalValue digits < 2 ^ (intSize - 1) then .ok (decimalValue digits : Int)
        else .error "value out of range" := by
  rw [Atoi_unfold intSize s c0 digits hs]
  simp only [hc0, if_true, hne, if_false, parseDigits_some digits 0 hd]
  simp

theorem Atoi_unsigned (intSize : Nat) (s : String) (digits : List Char)
    (hs : s.data = digits) (hne : digits ≠ [])
    (hd : ∀ c ∈ digits, '0' ≤ c ∧ c ≤ '9') :
    Atoi intSize s =
      if decimalValue digits < 2 ^ (intSize - 1) then .ok (decimalValue digits : Int)
      else .error "value out of range" := by
  cases digits with
  | nil => exact absurd rfl hne
  | cons c0 rest =>
    have hc0 := hd c0 (List.mem_cons_self _ _)
    have hns : ¬ (c0 = '-' ∨ c0 = '+') := digit_not_sign c0 hc0
    have hnm : ¬ c0 = '-' := fun h => hns (Or.inl h)
    rw [Atoi_unfold intSize s c0 rest hs, if_neg hns, if_neg hne,
      parseDigits_some (c0 :: rest) 0 hd]
    simp [hnm]

theorem Atoi_shape (intSize : Nat) (s : String) (v : Int) (h : Atoi intSize s = .ok v) :
    (∃ c0 digits, s.data = c0 :: digits ∧ (c0 = '-' ∨ c0 = '+') ∧ digits ≠ []
        ∧ ∀ c ∈ digits, '0' ≤ c ∧ c ≤ '9')
    ∨ (s.data ≠ [] ∧ ∀ c ∈ s.data, '0' ≤ c ∧ c ≤ '9') := by
  cases hs : s.data with
  | nil => simp [Atoi, hs] at h
  | cons c0 rest =>
    rw [Atoi_unfold intSize s c0 rest hs] at h
    by_cases hc0 : c0 = '-' ∨ c0 = '+'
    · left
      simp only [hc0, if_true] at h
      by_cases hne : rest = []
      · simp [hne] at h
      · simp only [hne, if_false] at h
        cases hp : parseDigits rest 0 with
        | none => simp [hp] at h
        | some n => exact ⟨c0, rest, rfl, hc0, hne, parseDigits_digits rest 0 n hp⟩
    · right
      simp only [hc0, if_false] at h
      refine ⟨by simp, ?_⟩
      cases hp : parseDigits (c0 :: rest) 0 with
      | none => simp [hp] at h
      | some n => exact parseDigits_digits (c0 :: rest) 0 n hp

theorem Atoi_ok_iff (intSize : Nat) (s : String) (v : Int) :
    Atoi intSize s = .ok v ↔ IsIntLiteral intSize s v := by
  have hpow : ((2 : Int) ^ (intSize - 1)) = ((2 ^ (intSize - 1) : Nat) : Int) := by push_cast; rfl
  constructor
  · intro h
    rcases Atoi_shape intSize s v h with ⟨c0, digits, hs, hc0, hne, hd⟩ | ⟨hne, hd⟩
    · rw [Atoi_signed intSize s c0 digits hs hc0 hne hd] at h
      rcases hc0 with rfl | rfl
      · simp only [if_true] at h
        split at h
        · rename_i hle
          injection h with hv
          refine ⟨['-'], digits, by simp [hs], by simp, hne, hd, by simp [hv], ?_, ?_⟩
          · rw [hpow]; omega
          · rw [hpow]
            have : 0 < 2 ^ (intSize - 1) := Nat.two_pow_pos _
            omega
        · cases h
      · have hpm : ¬ ('+' = '-') := by decide
        simp only [hpm, if_false] at h
        split at h
        · rename_i hlt
          injection h with hv
          refine ⟨['+'], digits, by simp [hs], by simp, hne, hd, by simp [hv], ?_, ?_⟩
          · rw [hpow]; omega
          · rw [hpow]; omega
        · cases h
    · rw [Atoi_unsigned intSize s s.data rfl hne hd] at h
      split at h
      · rename_i hlt
        injection h with hv
        refine ⟨[], s.data, by simp, by simp, hne, hd, by simp [hv], ?_, ?_⟩
        · rw [hpow]; omega
        · rw [hpow]; omega
      · cases h
  · rintro ⟨sign, digits, hs, hsign, hne, hd, hv, hlo, hhi⟩
    rw [hpow] at hlo hhi
    rcases hsign with rfl | rfl | rfl
    · rw [Atoi_unsigned intSize s digits (by simpa using hs) hne hd]
      simp only [List.nil_eq, reduceCtorEq, if_false] at hv
      have : decimalValue digits < 2 ^ (intSize - 1) := by omega
      simp [this, hv]
    · rw [Atoi_signed intSize s '+' digits (by simpa using hs) (Or.inr rfl) hne hd]
      have hpm : ¬ ('+' = '-') := by decide
      have hv2 : v = (decimalValue digits : Int) := by simpa using hv
      have : decimalValue digits < 2 ^ (intSize - 1) := by omega
      simp [hpm, this, hv2]
    · rw [Atoi_signed intSize s '-' digits (by simpa using hs) (Or.inl rfl) hne hd]
      have hv2 : v = -(decimalValue digits : Int) := by simpa using hv
      have : decimalValue digits ≤ 2 ^ (intSize - 1) := by omega
      simp [this, hv2]

/-! ## Parsing: auxiliary facts -/

theorem foldl_appendOrigins_path (xs : List String) (rule : CorsRule) :
    (xs.foldl appendOrigins rule).Path = rule.Path := by
  induction xs generalizing rule with
  | nil => rfl
  | cons x xs ih => simp [List.foldl, ih, appendOrigins]

theorem foldl_appendOrigins_origins (xs : List String) (rule : CorsRule) :
    (xs.foldl appendOrigins rule).Conf.AllowedOrigins
      = rule.Conf.AllowedOrigins ++ xs.flatMap (fun x => Split x ',') := by
  induction xs generalizing rule with
  | nil => simp
  | cons x xs ih => simp [List.foldl, ih, appendOrigins]

theorem positional_path (st : Building) (a : String) :
    (positional st a).rule.Path = st.rule.Path := by
  unfold positional
  cases st.anyOrigins <;> simp [appendOrigins, clearOrigins]

theorem foldl_positional_path (xs : List String) (st : Building) :
    (xs.foldl positional st).rule.Path = st.rule.Path := by
  induction xs generalizing st with
  | nil => rfl
  | cons x xs ih => simp [List.foldl, ih, positional_path]

theorem start_path (E : Deps) (e : Entry) :
    (start E e).rule.Path = e.args.head?.getD "/" := by
  unfold start
  rw [foldl_positional_path]
  cases e.args <;> rfl

theorem singleArg_ok (args : List String) (desc a : String)
    (h : singleArg args desc = .ok a) : args = [a] := by
  unfold singleArg at h
  split at h
  · injection h with h; subst h; rfl
  · cases h

theorem singleArg_one (a desc : String) : singleArg [a] desc = .ok a := rfl

theorem directive_origin (E : Deps) (st : Building) (d : Directive) (hn : d.name = "origin") :
    directive E st d
      = .ok { rule := d.args.foldl appendOrigins
                (if !st.anyOrigins then clearOrigins st.rule else st.rule),
              anyOrigins := true } := by
  simp [directive, hn]

theorem directive_unknown (E : Deps) (st : Building) (d : Directive)
    (hn : d.name ∉ knownDirectives) :
    directive E st d = .error ("Unknown cors config item: " ++ d.name) := by
  simp only [knownDirectives, List.mem_cons, List.mem_singleton, List.not_mem_nil, or_false,
    not_or] at hn
  obtain ⟨h1, h2, h3, h4, h5, h6, h7⟩ := hn
  simp [directive, h1, h2, h3, h4, h5, h6, h7]

/-- Inversion of a successful turn of the `switch`, case by case. -/
theorem directive_ok_cases (E : Deps) (st st1 : Building) (d : Directive)
    (h : directive E st d = .ok st1) :
    (d.name = "origin"
      ∧ st1 = { rule := d.args.foldl appendOrigins
                  (if !st.anyOrigins then clearOrigins st.rule else st.rule),
                anyOrigins := true })
    ∨ (d.name = "origin_regexp" ∧ ∃ arg r, d.args = [arg] ∧ E.Compile arg = .ok r
        ∧ st1 = { rule := { (if !st.anyOrigins then clearOrigins st.rule else st.rule) with
                    Conf := { (if !st.anyOrigins then clearOrigins st.rule else st.rule).Conf with
                      OriginRegexps := st.rule.Conf.OriginRegexps ++ [r] } },
                  anyOrigins := true })
    ∨ (d.name = "methods" ∧ ∃ arg, d.args = [arg]
        ∧ st1 = { st with rule := { st.rule with Conf := { st.rule.Conf with
                    AllowedMethods := arg } } })
    ∨ (d.name = "allow_credentials" ∧ ∃ arg, d.args = [arg] ∧ (arg = "true" ∨ arg = "false")
        ∧ st1 = { st with rule := { st.rule with Conf := { st.rule.Conf with
                    AllowCredentials := some (decide (arg = "true")) } } })
    ∨ (d.name = "max_age" ∧ ∃ arg i, d.args = [arg] ∧ Atoi E.intSize arg = .ok i
        ∧ st1 = { st with rule := { st.rule with Conf := { st.rule.Conf with MaxAge := i } } })
    ∨ (d.name = "allowed_headers" ∧ ∃ arg, d.args = [arg]
        ∧ st1 = { st with rule := { st.rule with Conf := { st.rule.Conf with
                    AllowedHeaders := arg } } })
    ∨ (d.name = "exposed_headers" ∧ ∃ arg, d.args = [arg]
        ∧ st1 = { st with rule := { st.rule with Conf := { st.rule.Conf with
                    ExposedHeaders := arg } } }) := by
  by_cases h1 : d.name = "origin"
  · rw [directive_origin E st d h1] at h
    injection h with h
    exact Or.inl ⟨h1, h.symm⟩
  by_cases h2 : d.name = "origin_regexp"
  · right; left
    simp only [directive, h2] at h
    simp only [String.reduceEq, if_false, if_true] at h
    cases hs : singleArg d.args "origin_regexp" with
    | error e => simp [hs] at h
    | ok arg =>
      simp only [hs] at h
      cases hc : E.Compile arg with
      | error e => simp [hc] at h
      | ok r =>
        simp only [hc] at h
        injection h with h
        refine ⟨h2, arg, r, singleArg_ok _ _ _ hs, hc, ?_⟩
        subst h
        obtain ⟨rule, any⟩ := st
        cases any <;> simp [clearOrigins]
  by_cases h3 : d.name = "methods"
  · right; right; left
    simp only [directive, h3] at h
    simp only [String.reduceEq, if_false, if_true] at h
    cases hs : singleArg d.args "methods" with
    | error e => simp [hs] at h
    | ok arg =>
      simp only [hs] at h
      injection h with h
      exact ⟨h3, arg, singleArg_ok _ _ _ hs, h.symm⟩
  by_cases h4 : d.name = "allow_credentials"
  · right; right; right; left
    simp only [directive, h4] at h
    simp only [String.reduceEq, if_false, if_true] at h
    cases hs : singleArg d.args "allow_credentials" with
    | error e => simp [hs] at h
    | ok arg =>
      simp only [hs] at h
      by_cases ht : arg = "true"
      · simp only [ht, if_true] at h
        injection h with h
        exact ⟨h4, arg, singleArg_ok _ _ _ hs, Or.inl ht, by simp [ht, ← h]⟩
      · by_cases hf : arg = "false"
        · subst hf
          simp at h
          exact ⟨h4, "false", singleArg_ok _ _ _ hs, Or.inr rfl, by simp [← h]⟩
        · simp [ht, hf] at h
  by_cases h5 : d.name = "max_age"
  · right; right; right; right; left
    simp only [directive, h5] at h
    simp only [String.reduceEq, if_false, if_true] at h
    cases hs : singleArg d.args "max_age" with
    | error e => simp [hs] at h
    | ok arg =>
      simp only [hs] at h
      cases ha : Atoi E.intSize arg with
      | error e => simp [ha] at h
      | ok i =>
        simp only [ha] at h
        injection h with h
        exact ⟨h5, arg, i, singleArg_ok _ _ _ hs, ha, h.symm⟩
  by_cases h6 : d.name = "allowed_headers"
  · right; right; right; right; right; left
    simp only [directive, h6] at h
    simp only [String.reduceEq, if_false, if_true] at h
    cases hs : singleArg d.args "allowed_headers" with
    | error e => simp [hs] at h
    | ok arg =>
      simp only [hs] at h
      injection h with h
      exact ⟨h6, arg, singleArg_ok _ _ _ hs, h.symm⟩
  by_cases h7 : d.name = "exposed_headers"
  · right; right; right; right; right; right
    simp only [directive, h7] at h
    simp only [String.reduceEq, if_false, if_true] at h
    cases hs : singleArg d.args "exposed_headers" with
    | error e => simp [hs] at h
    | ok arg =>
      simp only [hs] at h
      injection h with h
      exact ⟨h7, arg, singleArg_ok _ _ _ hs, h.symm⟩
  · rw [directive_unknown E st d (by simp [knownDirectives, h1, h2, h3, h4, h5, h6, h7])] at h
    cases h

theorem directive_path (E : Deps) (st st1 : Building) (d : Directive)
    (h : directive E st d = .ok st1) : st1.rule.Path = st.rule.Path := by
  rcases directive_ok_cases E st st1 d h with
    ⟨_, rfl⟩ | ⟨_, _, _, _, _, rfl⟩ | ⟨_, _, _, rfl⟩ | ⟨_, _, _, _, rfl⟩ | ⟨_, _, _, _, _, rfl⟩
      | ⟨_, _, _, rfl⟩ | ⟨_, _, _, rfl⟩
  · rw [foldl_appendOrigins_path]
    cases st.anyOrigins <;> rfl
  · cases st.anyOrigins <;> rfl
  all_goals rfl

theorem block_path (E : Deps) (ds : List Directive) (st st1 : Building)
    (h : block E st ds = .ok st1) : st1.rule.Path = st.rule.Path := by
  induction ds generalizing st with
  | nil =>
    simp only [block] at h
    injection h with h
    rw [h]
  | cons d ds ih =>
    simp only [block] at h
    cases hd : directive E st d with
    | error e => simp [hd] at h
    | ok st2 =>
      simp only [hd] at h
      rw [ih st2 h, directive_path E st st2 d hd]

theorem block_append (E : Deps) (ds ds2 : List Directive) (st st1 : Building)
    (h : block E st ds = .ok st1) : block E st (ds ++ ds2) = block E st1 ds2 := by
  induction ds generalizing st with
  | nil =>
    simp only [block] at h
    injection h with h
    simp [h]
  | cons d ds ih =>
    simp only [block] at h
    cases hd : directive E st d with
    | error e => simp [hd] at h
    | ok st2 =>
      simp only [hd] at h
      simp [block, hd, ih st2 h]

theorem entry_ok (E : Deps) (e : Entry) (r : CorsRule) (h : entry E e = .ok r) :
    ∃ st, block E (start E e) e.block = .ok st ∧ st.rule = r := by
  unfold entry at h
  cases hb : block E (start E e) e.block with
  | error err => simp [hb] at h
  | ok st =>
    simp only [hb] at h
    injection h with h
    exact ⟨st, rfl, h⟩

theorem entry_path (E : Deps) (e : Entry) (r : CorsRule) (h : entry E e = .ok r) :
    r.Path = e.args.head?.getD "/" := by
  obtain ⟨st, hb, rfl⟩ := entry_ok E e r h
  rw [block_path E e.block _ st hb, start_path]

/-- A successful `UnmarshalCaddyfile` appends to the rules it found one rule
per entry, the rule of that entry, in order. -/
theorem unmarshal_ok (E : Deps) (c : List Entry) (m m1 : Middleware)
    (h : UnmarshalCaddyfile E m c = (m1, none)) :
    ∃ rules, List.Forall₂ (fun e r => entry E e = .ok r) c rules
      ∧ m1.Rules = m.Rules ++ rules := by
  induction c generalizing m with
  | nil =>
    simp only [UnmarshalCaddyfile] at h
    injection h with h _
    exact ⟨[], List.Forall₂.nil, by simp [h]⟩
  | cons e es ih =>
    simp only [UnmarshalCaddyfile] at h
    cases he : entry E e with
    | error err => simp [he] at h
    | ok rule =>
      simp only [he] at h
      obtain ⟨rules, hall, hr⟩ := ih _ h
      exact ⟨rule :: rules, List.Forall₂.cons he hall, by simp [hr]⟩

/-- Go `UnmarshalCaddyfile` on entries that all parse, followed by more entries. -/
theorem unmarshal_append (E : Deps) (c c2 : List Entry) (rules : List CorsRule) (m : Middleware)
    (h : List.Forall₂ (fun e r => entry E e = .ok r) c rules) :
    UnmarshalCaddyfile E m (c ++ c2) = UnmarshalCaddyfile E { Rules := m.Rules ++ rules } c2 := by
  induction h generalizing m with
  | nil => simp
  | cons he _ ih => simp [UnmarshalCaddyfile, he, ih]

theorem forall₂_getElem? {α β : Type} (R : α → β → Prop) (xs : List α) (ys : List β)
    (h : List.Forall₂ R xs ys) (i : Nat) (x : α) (hx : xs[i]? = some x) :
    ∃ y, ys[i]? = some y ∧ R x y := by
  induction h generalizing i with
  | nil => simp at hx
  | cons hr _ ih =>
    cases i with
    | zero =>
      simp only [List.getElem?_cons_zero, Option.some.injEq] at hx
      subst hx
      exact ⟨_, by simp, hr⟩
    | succ i =>
      simp only [List.getElem?_cons_succ] at hx
      simpa using ih i hx

theorem forall₂_mem_right {α β : Type} (R : α → β → Prop) (xs : List α) (ys : List β)
    (h : List.Forall₂ R xs ys) (y : β) (hy : y ∈ ys) : ∃ x ∈ xs, R x y := by
  induction h with
  | nil => cases hy
  | cons hr _ ih =>
    rcases List.mem_cons.mp hy with rfl | hy
    · exact ⟨_, List.mem_cons_self _ _, hr⟩
    · obtain ⟨x, hx, hxy⟩ := ih hy
      exact ⟨x, List.mem_cons_of_mem _ hx, hxy⟩

/-! ### Literal origins gathered by the parser -/

theorem gathered_positional (st : Building) (a : String) :
    gathered (positional st a) = gathered st ++ Split a ','
    ∧ (positional st a).anyOrigins = true := by
  obtain ⟨rule, any⟩ := st
  cases any <;> simp [gathered, positional, appendOrigins, clearOrigins]

theorem gathered_foldl_positional (xs : List String) (st : Building) :
    gathered (xs.foldl positional st) = gathered st ++ xs.flatMap (fun x => Split x ',')
    ∧ ((xs ≠ [] ∨ st.anyOrigins = true) → (xs.foldl positional st).anyOrigins = true) := by
  induction xs generalizing st with
  | nil => simp
  | cons x xs ih =>
    obtain ⟨h1, h2⟩ := ih (positional st x)
    obtain ⟨h3, h4⟩ := gathered_positional st x
    refine ⟨by simp [List.foldl, h1, h3], fun _ => ?_⟩
    exact h2 (Or.inr h4)

theorem gathered_start (E : Deps) (e : Entry) :
    gathered (start E e) = (e.args.drop 1).flatMap (fun x => Split x ',')
    ∧ (e.args.drop 1 ≠ [] → (start E e).anyOrigins = true) := by
  unfold start
  obtain ⟨h1, h2⟩ := gathered_foldl_positional (e.args.drop 1)
    { rule := (match e.args with
        | [] => ({ Path := "/", Conf := E.Default } : CorsRule)
        | a :: _ => { ({ Path := "/", Conf := E.Default } : CorsRule) with Path := a }),
      anyOrigins := false }
  exact ⟨by simpa [gathered] using h1, fun hne => h2 (Or.inl hne)⟩

theorem gathered_directive (E : Deps) (st st1 : Building) (d : Directive)
    (h : directive E st d = .ok st1) :
    gathered st1
        = gathered st ++ (if d.name = "origin" then d.args else []).flatMap (fun x => Split x ',')
    ∧ ((d.name = "origin" ∨ st.anyOrigins = true) → st1.anyOrigins = true) := by
  obtain ⟨rule, any⟩ := st
  rcases directive_ok_cases E _ st1 d h with
    ⟨hn, rfl⟩ | ⟨hn, _, _, _, _, rfl⟩ | ⟨hn, _, _, rfl⟩ | ⟨hn, _, _, _, rfl⟩
      | ⟨hn, _, _, _, _, rfl⟩ | ⟨hn, _, _, rfl⟩ | ⟨hn, _, _, rfl⟩
  · cases any <;> simp [gathered, hn, foldl_appendOrigins_origins, clearOrigins]
  · cases any <;> simp [gathered, hn, clearOrigins]
  all_goals simp [gathered, hn]

theorem gathered_block (E : Deps) (ds : List Directive) (st st1 : Building)
    (h : block E st ds = .ok st1) :
    gathered st1
        = gathered st
          ++ ((ds.filter (fun d => d.name = "origin")).flatMap (fun d => d.args)).flatMap
              (fun x => Split x ',')
    ∧ (((∃ d ∈ ds, d.name = "origin") ∨ st.anyOrigins = true) → st1.anyOrigins = true) := by
  induction ds generalizing st with
  | nil =>
    simp only [block] at h
    injection h with h
    subst h
    simp
  | cons d ds ih =>
    simp only [block] at h
    cases hd : directive E st d with
    | error e => simp [hd] at h
    | ok st2 =>
      simp only [hd] at h
      obtain ⟨h1, h2⟩ := ih st2 h
      obtain ⟨h3, h4⟩ := gathered_directive E st st2 d hd
      constructor
      · rw [h1, h3]
        by_cases hn : d.name = "origin" <;> simp [hn, List.filter_cons]
      · rintro (⟨x, hx, hxn⟩ | hany)
        · rcases List.mem_cons.mp hx with rfl | hx
          · exact h2 (Or.inr (h4 (Or.inl hxn)))
          · exact h2 (Or.inl ⟨x, hx, hxn⟩)
        · exact h2 (Or.inr (h4 (Or.inr hany)))

theorem entry_origins (E : Deps) (e : Entry) (r : CorsRule) (h : entry E e = .ok r)
    (hsrc : e.args.drop 1 ≠ [] ∨ ∃ d ∈ e.block, d.name = "origin") :
    r.Conf.AllowedOrigins = statedOrigins e := by
  obtain ⟨st, hb, rfl⟩ := entry_ok E e r h
  obtain ⟨h1, h2⟩ := gathered_block E e.block _ st hb
  obtain ⟨h3, h4⟩ := gathered_start E e
  have hany : st.anyOrigins = true := by
    rcases hsrc with hpos | hdir
    · exact h2 (Or.inr (h4 hpos))
    · exact h2 (Or.inl hdir)
  have hg : gathered st = st.rule.Conf.AllowedOrigins := by simp [gathered, hany]
  rw [← hg, h1, h3]
  simp [statedOrigins, originArgs]

/-! ## Parsing: the claims -/

/-- C5: in a configuration that `UnmarshalCaddyfile` parses without error, the
rule of every entry that has a positional origin argument or an `origin` line
has as `AllowedOrigins` exactly the comma-split pieces of the positional
arguments after the first, then of the arguments of every `origin` line, in
order: no default origin is kept and no source resets an earlier one. -/
theorem origins_replace_then_accumulate (E : Deps) (m0 m : Middleware) (cfg : List Entry)
    (h : UnmarshalCaddyfile E m0 cfg = (m, none)) (i : Nat) (e : Entry) (hi : cfg[i]? = some e)
    (hsrc : e.args.drop 1 ≠ [] ∨ ∃ d ∈ e.block, d.name = "origin") :
    ∃ r, m.Rules[m0.Rules.length + i]? = some r ∧ r.Conf.AllowedOrigins = statedOrigins e := by
  obtain ⟨rules, hall, hr⟩ := unmarshal_ok E cfg m0 m h
  obtain ⟨r, hri, her⟩ := forall₂_getElem? _ cfg rules hall i e hi
  refine ⟨r, ?_, entry_origins E e r her hsrc⟩
  rw [hr, List.getElem?_append_right (Nat.le_add_right _ _)]
  simpa using hri

/-- Witness of C5: `cors /x origin-a.com { origin origin-b.com }` gives the
origins `origin-a.com`, `origin-b.com`. -/
theorem origins_replace_then_accumulate_witness :
    statedOrigins ⟨["/x", "origin-a.com"], [⟨"origin", ["origin-b.com"]⟩]⟩
        = ["origin-a.com", "origin-b.com"]
    ∧ (parseCaddyfile sampleDeps
          [⟨["/x", "origin-a.com"], [⟨"origin", ["origin-b.com"]⟩]⟩]).1.Rules.map
        (fun r => r.Conf.AllowedOrigins) = [["origin-a.com", "origin-b.com"]]
    ∧ ∃ r, (UnmarshalCaddyfile sampleDeps ⟨[]⟩
              [⟨["/x", "origin-a.com"], [⟨"origin", ["origin-b.com"]⟩]⟩]).1.Rules[0 + 0]? = some r
        ∧ r.Conf.AllowedOrigins
            = statedOrigins ⟨["/x", "origin-a.com"], [⟨"origin", ["origin-b.com"]⟩]⟩ :=
  ⟨by decide, by decide,
   origins_replace_then_accumulate sampleDeps ⟨[]⟩ _
    [⟨["/x", "origin-a.com"], [⟨"origin", ["origin-b.com"]⟩]⟩] rfl 0
    ⟨["/x", "origin-a.com"], [⟨"origin", ["origin-b.com"]⟩]⟩ rfl
    (Or.inl (by decide))⟩

/-- C6, counterexample: the entry `cors /Api` parses without error and its
rule has the path `/Api`, which is not lower-case. -/
theorem parsed_path_not_lowercase :
    parseCaddyfile sampleDeps [⟨["/Api"], []⟩]
        = (⟨[CorsRule.mk sampleDeps.Default "/Api"]⟩, none)
    ∧ asciiToLower "/Api" ≠ "/Api" := by
  decide

/-- C6, amended: in a configuration that `UnmarshalCaddyfile` parses without
error, the rule of every entry that has no positional argument or whose first
positional argument is already lower-case has a lower-case `Path`.  Lower-case
is meant as a fixed point of the lower-casing `ToLower`, which may be any
function that leaves `/` as it is, as `strings.ToLower` does. -/
theorem parsed_path_lowercase_of_lowercase_arg (ToLower : String → String)
    (hslash : ToLower "/" = "/") (E : Deps) (m0 m : Middleware)
    (cfg : List Entry) (h : UnmarshalCaddyfile E m0 cfg = (m, none)) (i : Nat) (e : Entry)
    (hi : cfg[i]? = some e) (hl : ∀ a, e.args.head? = some a → ToLower a = a) :
    ∃ r, m.Rules[m0.Rules.length + i]? = some r ∧ ToLower r.Path = r.Path := by
  obtain ⟨rules, hall, hr⟩ := unmarshal_ok E cfg m0 m h
  obtain ⟨r, hri, her⟩ := forall₂_getElem? _ cfg rules hall i e hi
  refine ⟨r, ?_, ?_⟩
  · rw [hr, List.getElem?_append_right (Nat.le_add_right _ _)]
    simpa using hri
  · rw [entry_path E e r her]
    cases hh : e.args.head? with
    | none => exact hslash
    | some a => exact hl a hh

/-- Witness of the amended C6: `cors /api` and `cors` give the lower-case
paths `/api` and `/`. -/
theorem parsed_path_lowercase_of_lowercase_arg_witness :
    (parseCaddyfile sampleDeps [⟨["/api"], []⟩, ⟨[], []⟩]).1.Rules.map (fun r => r.Path)
        = ["/api", "/"]
    ∧ asciiToLower "/" = "/"
    ∧ (∃ r, (UnmarshalCaddyfile sampleDeps ⟨[]⟩ [⟨["/api"], []⟩, ⟨[], []⟩]).1.Rules[0 + 0]?
          = some r
        ∧ asciiToLower r.Path = r.Path)
    ∧ ∃ r, (UnmarshalCaddyfile sampleDeps ⟨[]⟩ [⟨["/api"], []⟩, ⟨[], []⟩]).1.Rules[0 + 1]?
          = some r
        ∧ asciiToLower r.Path = r.Path :=
  ⟨by decide, by decide,
   parsed_path_lowercase_of_lowercase_arg asciiToLower (by decide) sampleDeps ⟨[]⟩ _
    [⟨["/api"], []⟩, ⟨[], []⟩] rfl 0 ⟨["/api"], []⟩ rfl (by
      intro a ha
      have : a = "/api" := by simpa using ha.symm
      subst this
      decide),
   parsed_path_lowercase_of_lowercase_arg asciiToLower (by decide) sampleDeps ⟨[]⟩ _
    [⟨["/api"], []⟩, ⟨[], []⟩] rfl 1 ⟨[], []⟩ rfl (by
      intro a ha
      simp at ha)⟩

/-- C7, counterexample: the entry whose first positional argument is the empty
token parses without error and its rule has the empty path. -/
theorem parsed_path_empty :
    parseCaddyfile sampleDeps [⟨[""], []⟩] = (⟨[CorsRule.mk sampleDeps.Default ""]⟩, none) := by
  decide

/-- C7, amended: in a configuration that `UnmarshalCaddyfile` parses without
error, the rule of every entry that has no positional argument or whose first
positional argument is not the empty token has a non-empty `Path`. -/
theorem parsed_path_nonempty_of_nonempty_arg (E : Deps) (m0 m : Middleware)
    (cfg : List Entry) (h : UnmarshalCaddyfile E m0 cfg = (m, none)) (i : Nat) (e : Entry)
    (hi : cfg[i]? = some e) (hne : e.args.head? ≠ some "") :
    ∃ r, m.Rules[m0.Rules.length + i]? = some r ∧ r.Path ≠ "" := by
  obtain ⟨rules, hall, hr⟩ := unmarshal_ok E cfg m0 m h
  obtain ⟨r, hri, her⟩ := forall₂_getElem? _ cfg rules hall i e hi
  refine ⟨r, ?_, ?_⟩
  · rw [hr, List.getElem?_append_right (Nat.le_add_right _ _)]
    simpa using hri
  · rw [entry_path E e r her]
    cases hh : e.args.head? with
    | none => decide
    | some a =>
      intro ha
      apply hne
      rw [hh]
      simpa using ha

/-- Witness of the amended C7: `cors` alone gives the path `/`, and `cors /x
a.com` with the line `methods GET` gives the path `/x`. -/
theorem parsed_path_nonempty_of_nonempty_arg_witness :
    (∃ r, (UnmarshalCaddyfile sampleDeps ⟨[]⟩ [⟨[], []⟩]).1.Rules[0 + 0]? = some r
      ∧ r.Path ≠ "")
    ∧ (∃ r, (UnmarshalCaddyfile sampleDeps ⟨[]⟩
          [⟨[], []⟩, ⟨["/x", "a.com"], [⟨"methods", ["GET"]⟩]⟩]).1.Rules[0 + 1]? = some r
      ∧ r.Path ≠ "")
    ∧ (parseCaddyfile sampleDeps
          [⟨[], []⟩, ⟨["/x", "a.com"], [⟨"methods", ["GET"]⟩]⟩]).1.Rules.map (fun r => r.Path)
        = ["/", "/x"] :=
  ⟨parsed_path_nonempty_of_nonempty_arg sampleDeps ⟨[]⟩ _ [⟨[], []⟩] rfl 0 ⟨[], []⟩ rfl
    (by decide),
   parsed_path_nonempty_of_nonempty_arg sampleDeps ⟨[]⟩ _
    [⟨[], []⟩, ⟨["/x", "a.com"], [⟨"methods", ["GET"]⟩]⟩] rfl 1
    ⟨["/x", "a.com"], [⟨"methods", ["GET"]⟩]⟩ rfl (by decide),
   by decide⟩

/-- C8: a line whose name is none of the seven directive names, reached after
earlier entries and earlier lines of its block that all parse, makes
`UnmarshalCaddyfile` return the error `Unknown cors config item: <name>`, a
message that contains the name; the rules are those of the earlier entries. -/
theorem unknown_directive_fails (E : Deps) (m m1 : Middleware) (pre post : List Entry)
    (e : Entry) (ds rest : List Directive) (d : Directive) (st1 : Building)
    (hpre : UnmarshalCaddyfile E m pre = (m1, none))
    (hblock : e.block = ds ++ d :: rest)
    (hds : block E (start E e) ds = .ok st1)
    (hname : d.name ∉ knownDirectives) :
    UnmarshalCaddyfile E m (pre ++ e :: post)
        = (m1, some ("Unknown cors config item: " ++ d.name))
    ∧ ∃ msg a b, (UnmarshalCaddyfile E m (pre ++ e :: post)).2 = some msg
        ∧ msg = a ++ d.name ++ b := by
  obtain ⟨rules, hall, hr⟩ := unmarshal_ok E pre m m1 hpre
  have he : entry E e = .error ("Unknown cors config item: " ++ d.name) := by
    unfold entry
    rw [hblock, block_append E ds (d :: rest) _ st1 hds]
    simp [block, directive_unknown E st1 d hname]
  have hres : UnmarshalCaddyfile E m (pre ++ e :: post)
      = (m1, some ("Unknown cors config item: " ++ d.name)) := by
    rw [unmarshal_append E pre (e :: post) rules m hall]
    simp only [UnmarshalCaddyfile, he]
    cases m1
    simp only [Middleware.mk.injEq] at hr
    simp [hr]
  refine ⟨hres, "Unknown cors config item: " ++ d.name, "Unknown cors config item: ", "", ?_, ?_⟩
  · rw [hres]
  · simp

/-- Witness of C8: the block `foo bar` fails with an error naming `foo`. -/
theorem unknown_directive_fails_witness :
    UnmarshalCaddyfile sampleDeps ⟨[]⟩ ([] ++ ⟨[], [⟨"foo", ["bar"]⟩]⟩ :: [])
        = (⟨[]⟩, some ("Unknown cors config item: " ++ "foo"))
    ∧ ∃ msg a b, (UnmarshalCaddyfile sampleDeps ⟨[]⟩
          ([] ++ ⟨[], [⟨"foo", ["bar"]⟩]⟩ :: [])).2 = some msg
        ∧ msg = a ++ (Directive.mk "foo" ["bar"]).name ++ b :=
  unknown_directive_fails sampleDeps ⟨[]⟩ ⟨[]⟩ [] [] ⟨[], [⟨"foo", ["bar"]⟩]⟩ [] []
    ⟨"foo", ["bar"]⟩ (start sampleDeps ⟨[], [⟨"foo", ["bar"]⟩]⟩) rfl rfl rfl (by decide)

theorem directive_max_age (E : Deps) (st : Building) (s : String) :
    directive E st ⟨"max_age", [s]⟩
      = match Atoi E.intSize s with
        | .error _ => .error "max_age must be valid int"
        | .ok i =>
          .ok { st with rule := { st.rule with Conf := { st.rule.Conf with MaxAge := i } } } := by
  simp [directive, singleArg]

/-- C9: the line `max_age s` parses exactly when `s` is a base-10 integer
literal, optionally signed and in the range of `int`; it then sets `MaxAge` to
the integer `s` denotes and changes nothing else, and otherwise fails with
`max_age must be valid int`. -/
theorem max_age_valid_iff (E : Deps) (st : Building) (s : String) :
    ((∃ st1, directive E st ⟨"max_age", [s]⟩ = .ok st1) ↔ ∃ v, IsIntLiteral E.intSize s v)
    ∧ (∀ v, IsIntLiteral E.intSize s v →
        directive E st ⟨"max_age", [s]⟩
          = .ok { st with rule := { st.rule with Conf := { st.rule.Conf with MaxAge := v } } })
    ∧ ((¬ ∃ v, IsIntLiteral E.intSize s v) →
        directive E st ⟨"max_age", [s]⟩ = .error "max_age must be valid int") := by
  have hval : ∀ v, IsIntLiteral E.intSize s v →
      directive E st ⟨"max_age", [s]⟩
        = .ok { st with rule := { st.rule with Conf := { st.rule.Conf with MaxAge := v } } } := by
    intro v hv
    rw [directive_max_age, (Atoi_ok_iff E.intSize s v).mpr hv]
  have hinv : ∀ st1, directive E st ⟨"max_age", [s]⟩ = .ok st1 →
      ∃ v, IsIntLiteral E.intSize s v := by
    intro st1 h1
    rw [directive_max_age] at h1
    cases ha : Atoi E.intSize s with
    | error err => simp [ha] at h1
    | ok i => exact ⟨i, (Atoi_ok_iff E.intSize s i).mp ha⟩
  refine ⟨⟨fun ⟨st1, h1⟩ => hinv st1 h1, fun ⟨v, hv⟩ => ⟨_, hval v hv⟩⟩, hval, ?_⟩
  intro hnot
  rw [directive_max_age]
  cases ha : Atoi E.intSize s with
  | error err => rfl
  | ok i => exact absurd ⟨i, (Atoi_ok_iff E.intSize s i).mp ha⟩ hnot

/-- Witness of C9: `600` is a literal denoting 600 and `max_age 600` sets
`MaxAge` to 600; `max_age abc` fails, `abc` being no literal. -/
theorem max_age_valid_iff_witness :
    IsIntLiteral sampleDeps.intSize "600" 600
    ∧ directive sampleDeps (start sampleDeps ⟨[], []⟩) ⟨"max_age", ["600"]⟩
        = .ok { start sampleDeps ⟨[], []⟩ with
            rule := { (start sampleDeps ⟨[], []⟩).rule with
              Conf := { (start sampleDeps ⟨[], []⟩).rule.Conf with MaxAge := 600 } } }
    ∧ (parseCaddyfile sampleDeps [⟨[], [⟨"max_age", ["600"]⟩]⟩]).1.Rules.map
        (fun r => r.Conf.MaxAge) = [600]
    ∧ (¬ ∃ v, IsIntLiteral sampleDeps.intSize "abc" v)
    ∧ parseCaddyfile sampleDeps [⟨[], [⟨"max_age", ["abc"]⟩]⟩]
        = (⟨[]⟩, some "max_age must be valid int") :=
  have h600 : IsIntLiteral sampleDeps.intSize "600" 600 :=
    ⟨[], ['6', '0', '0'], rfl, Or.inl rfl, by decide, by decide, by decide, by decide,
      by decide⟩
  have habc : ¬ ∃ v, IsIntLiteral sampleDeps.intSize "abc" v := fun hv => by
    obtain ⟨st1, h1⟩ :=
      (max_age_valid_iff sampleDeps (start sampleDeps ⟨[], []⟩) "abc").1.mpr hv
    have h2 : directive sampleDeps (start sampleDeps ⟨[], []⟩) ⟨"max_age", ["abc"]⟩
        = .error "max_age must be valid int" := rfl
    rw [h2] at h1
    cases h1
  ⟨h600, (max_age_valid_iff sampleDeps (start sampleDeps ⟨[], []⟩) "600").2.1 600 h600,
   by decide, habc, by decide⟩

/-- C10: the line `allow_credentials s` fails exactly when `s` is neither
`true` nor `false`, compared as written; otherwise it sets `AllowCredentials`
to a present value, `true` exactly when `s` is `true`, and changes nothing
else. -/
theorem allow_credentials_literals (E : Deps) (st : Building) (s : String) :
    ((∃ msg, directive E st ⟨"allow_credentials", [s]⟩ = .error msg)
        ↔ (s ≠ "true" ∧ s ≠ "false"))
    ∧ ((s = "true" ∨ s = "false") →
        directive E st ⟨"allow_credentials", [s]⟩
          = .ok { st with rule := { st.rule with Conf := { st.rule.Conf with
                    AllowCredentials := some (decide (s = "true")) } } }) := by
  by_cases ht : s = "true"
  · subst ht
    simp [directive, singleArg]
  · by_cases hf : s = "false"
    · subst hf
      simp [directive, singleArg]
    · simp [directive, singleArg, ht, hf]

/-- Witness of C10: `true` and `false` are accepted and stored; `True` and `1`
are rejected. -/
theorem allow_credentials_literals_witness :
    directive sampleDeps (start sampleDeps ⟨[], []⟩) ⟨"allow_credentials", ["true"]⟩
        = .ok { start sampleDeps ⟨[], []⟩ with
            rule := { (start sampleDeps ⟨[], []⟩).rule with
              Conf := { (start sampleDeps ⟨[], []⟩).rule.Conf with
                AllowCredentials := some (decide ("true" = "true")) } } }
    ∧ directive sampleDeps (start sampleDeps ⟨[], []⟩) ⟨"allow_credentials", ["false"]⟩
        = .ok { start sampleDeps ⟨[], []⟩ with
            rule := { (start sampleDeps ⟨[], []⟩).rule with
              Conf := { (start sampleDeps ⟨[], []⟩).rule.Conf with
                AllowCredentials := some (decide ("false" = "true")) } } }
    ∧ (∃ msg, directive sampleDeps (start sampleDeps ⟨[], []⟩) ⟨"allow_credentials", ["True"]⟩
        = .error msg)
    ∧ (∃ msg, directive sampleDeps (start sampleDeps ⟨[], []⟩) ⟨"allow_credentials", ["1"]⟩
        = .error msg)
    ∧ (parseCaddyfile sampleDeps [⟨[], [⟨"allow_credentials", ["false"]⟩]⟩]).1.Rules.map
        (fun r => r.Conf.AllowCredentials) = [some false] :=
  ⟨(allow_credentials_literals sampleDeps (start sampleDeps ⟨[], []⟩) "true").2
      (Or.inl rfl),
   (allow_credentials_literals sampleDeps (start sampleDeps ⟨[], []⟩) "false").2
      (Or.inr rfl),
   (allow_credentials_literals sampleDeps (start sampleDeps ⟨[], []⟩) "True").1.mpr
      (by decide),
   (allow_credentials_literals sampleDeps (start sampleDeps ⟨[], []⟩) "1").1.mpr
      (by decide),
   by decide⟩

/-! ## Parsing: lines as effects -/

theorem reads_name (E : Deps) (d : Directive) (eff : Effect) (h : reads E d eff) :
    d.name = eff.name := by
  cases eff <;> exact h.1

/-- A line parses exactly when it reads as some effect, and the state after it
is that effect applied. -/
theorem directive_ok_iff (E : Deps) (st st1 : Building) (d : Directive) :
    directive E st d = .ok st1 ↔ ∃ eff, reads E d eff ∧ st1 = eff.apply st := by
  constructor
  · intro h
    rcases directive_ok_cases E st st1 d h with
      ⟨hn, rfl⟩ | ⟨hn, arg, r, ha, hc, rfl⟩ | ⟨hn, arg, ha, rfl⟩ | ⟨hn, arg, ha, hv, rfl⟩
        | ⟨hn, arg, i, ha, hi, rfl⟩ | ⟨hn, arg, ha, rfl⟩ | ⟨hn, arg, ha, rfl⟩
    · exact ⟨.origin d.args, ⟨hn, rfl⟩, rfl⟩
    · exact ⟨.originRegexp r, ⟨hn, arg, ha, hc⟩, rfl⟩
    · exact ⟨.methods arg, ⟨hn, ha⟩, rfl⟩
    · exact ⟨.allowCredentials (decide (arg = "true")), ⟨hn, arg, ha, hv, rfl⟩, rfl⟩
    · exact ⟨.maxAge i, ⟨hn, arg, ha, hi⟩, rfl⟩
    · exact ⟨.allowedHeaders arg, ⟨hn, ha⟩, rfl⟩
    · exact ⟨.exposedHeaders arg, ⟨hn, ha⟩, rfl⟩
  · rintro ⟨eff, hr, rfl⟩
    obtain ⟨name, args⟩ := d
    cases eff with
    | origin a =>
      obtain ⟨hn, ha⟩ := hr
      simp only at hn ha
      subst hn ha
      simp [directive, Effect.apply]
    | originRegexp r =>
      obtain ⟨hn, arg, ha, hc⟩ := hr
      simp only at hn ha
      subst hn ha
      obtain ⟨rule, any⟩ := st
      cases any <;> simp [directive, singleArg, hc, Effect.apply, clearOrigins]
    | methods a =>
      obtain ⟨hn, ha⟩ := hr
      simp only at hn ha
      subst hn ha
      simp [directive, singleArg, Effect.apply]
    | allowCredentials b =>
      obtain ⟨hn, arg, ha, hv, hb⟩ := hr
      simp only at hn ha
      subst hn ha hb
      rcases hv with rfl | rfl <;> simp [directive, singleArg, Effect.apply]
    | maxAge i =>
      obtain ⟨hn, arg, ha, hi⟩ := hr
      simp only at hn ha
      subst hn ha
      simp [directive, singleArg, hi, Effect.apply]
    | allowedHeaders a =>
      obtain ⟨hn, ha⟩ := hr
      simp only at hn ha
      subst hn ha
      simp [directive, singleArg, Effect.apply]
    | exposedHeaders a =>
      obtain ⟨hn, ha⟩ := hr
      simp only at hn ha
      subst hn ha
      simp [directive, singleArg, Effect.apply]

/-- Whether a line parses does not depend on the rule under construction. -/
theorem directive_ok_any_state (E : Deps) (st st1 st2 : Building) (d : Directive)
    (h : directive E st d = .ok st1) : ∃ st3, directive E st2 d = .ok st3 := by
  obtain ⟨eff, hr, _⟩ := (directive_ok_iff E st st1 d).mp h
  exact ⟨eff.apply st2, (directive_ok_iff E st2 _ d).mpr ⟨eff, hr, rfl⟩⟩

theorem foldl_appendOrigins_eq (xs : List String) (rule : CorsRule) :
    xs.foldl appendOrigins rule
      = { rule with Conf := { rule.Conf with
            AllowedOrigins := rule.Conf.AllowedOrigins ++ xs.flatMap (fun x => Split x ',') } } := by
  induction xs generalizing rule with
  | nil => simp
  | cons x xs ih => simp [List.foldl, ih, appendOrigins]

/-- Effects of different directive names commute. -/
theorem effect_comm (st : Building) (e1 e2 : Effect) (hne : e1.name ≠ e2.name) :
    e2.apply (e1.apply st) = e1.apply (e2.apply st) := by
  obtain ⟨⟨conf, path⟩, any⟩ := st
  cases e1 <;> cases e2 <;>
    first
      | exact absurd rfl hne
      | (cases any <;>
          simp [Effect.apply, clearOrigins, foldl_appendOrigins_eq])

/-! ## Parsing: success, failure and frames -/

/-- When every entry parses, `UnmarshalCaddyfile` appends their rules and
returns `nil`. -/
theorem unmarshal_all_ok (E : Deps) (cfg : List Entry) (rules : List CorsRule) (m : Middleware)
    (h : List.Forall₂ (fun e r => entry E e = .ok r) cfg rules) :
    UnmarshalCaddyfile E m cfg = ({ Rules := m.Rules ++ rules }, none) := by
  have h1 := unmarshal_append E cfg [] rules m h
  simpa [UnmarshalCaddyfile] using h1

/-- An entry that fails after entries that parse: the error is returned and the
rules are those gathered before it. -/
theorem unmarshal_error_at (E : Deps) (m m1 : Middleware) (pre post : List Entry) (e : Entry)
    (msg : String) (hpre : UnmarshalCaddyfile E m pre = (m1, none))
    (he : entry E e = .error msg) :
    UnmarshalCaddyfile E m (pre ++ e :: post) = (m1, some msg) := by
  obtain ⟨rules, hall, hr⟩ := unmarshal_ok E pre m m1 hpre
  rw [unmarshal_append E pre (e :: post) rules m hall]
  simp only [UnmarshalCaddyfile, he]
  cases m1
  simp only [Middleware.mk.injEq] at hr
  simp [hr]

/-- A line that fails after lines that parse makes the entry fail with the
error of that line. -/
theorem entry_error_at (E : Deps) (e : Entry) (ds rest : List Directive) (d : Directive)
    (st1 : Building) (msg : String) (hblock : e.block = ds ++ d :: rest)
    (hds : block E (start E e) ds = .ok st1) (hd : directive E st1 d = .error msg) :
    entry E e = .error msg := by
  unfold entry
  rw [hblock, block_append E ds (d :: rest) _ st1 hds]
  simp [block, hd]

theorem directive_arity (E : Deps) (st : Building) (d : Directive)
    (hname : d.name ∈ singleArgDirectives) (hlen : d.args.length ≠ 1) :
    directive E st d = .error (d.name ++ " expects exactly one argument") := by
  obtain ⟨name, args⟩ := d
  have hs : ∀ desc, singleArg args desc = .error (desc ++ " expects exactly one argument") := by
    intro desc
    cases args with
    | nil => rfl
    | cons a as =>
      cases as with
      | nil => exact absurd rfl hlen
      | cons b bs => rfl
  simp only [singleArgDirectives, List.mem_cons, List.mem_singleton, List.not_mem_nil,
    or_false] at hname
  rcases hname with rfl | rfl | rfl | rfl | rfl | rfl <;> simp [directive, hs]

theorem directive_regexp_error (E : Deps) (st : Building) (arg err : String)
    (hc : E.Compile arg = .error err) :
    directive E st ⟨"origin_regexp", [arg]⟩ = .error ("could no compile regexp: " ++ err) := by
  simp [directive, singleArg, hc]

/-- A block parses to the effects of its lines applied in order. -/
theorem block_ok_iff (E : Deps) (ds : List Directive) (st st1 : Building) :
    block E st ds = .ok st1
      ↔ ∃ effs, List.Forall₂ (reads E) ds effs ∧ st1 = effs.foldl Effect.apply st := by
  induction ds generalizing st with
  | nil =>
    simp only [block]
    constructor
    · intro h
      injection h with h
      exact ⟨[], List.Forall₂.nil, h.symm⟩
    · rintro ⟨effs, hall, rfl⟩
      cases hall
      rfl
  | cons d ds ih =>
    constructor
    · intro h
      simp only [block] at h
      cases hd : directive E st d with
      | error e => simp [hd] at h
      | ok st2 =>
        simp only [hd] at h
        obtain ⟨eff, hr, rfl⟩ := (directive_ok_iff E st st2 d).mp hd
        obtain ⟨effs, hall, rfl⟩ := (ih _).mp h
        exact ⟨eff :: effs, List.Forall₂.cons hr hall, rfl⟩
    · rintro ⟨effs, hall, rfl⟩
      cases hall with
      | cons hr hrest =>
        rename_i eff effs
        have hd : directive E st d = .ok (eff.apply st) :=
          (directive_ok_iff E st _ d).mpr ⟨eff, hr, rfl⟩
        simp only [block, hd]
        exact (ih _).mpr ⟨effs, hrest, rfl⟩

/-- A block of well-formed lines parses, from any state. -/
theorem block_ok_of_reads (E : Deps) (ds : List Directive) (st : Building)
    (h : ∀ d ∈ ds, ∃ eff, reads E d eff) : ∃ st1, block E st ds = .ok st1 := by
  induction ds generalizing st with
  | nil => exact ⟨st, rfl⟩
  | cons d ds ih =>
    obtain ⟨eff, hr⟩ := h d (List.mem_cons_self _ _)
    have hd : directive E st d = .ok (eff.apply st) :=
      (directive_ok_iff E st _ d).mpr ⟨eff, hr, rfl⟩
    obtain ⟨st1, h1⟩ := ih (eff.apply st) (fun x hx => h x (List.mem_cons_of_mem _ hx))
    exact ⟨st1, by simp [block, hd, h1]⟩

/-! ## Parsing: arity, order of rules, failure -/

/-- C11: a line named `origin_regexp`, `methods`, `allow_credentials`,
`max_age`, `allowed_headers` or `exposed_headers` whose argument list has a
length other than 1, reached after entries and lines that parse, makes
`UnmarshalCaddyfile` return the error `<name> expects exactly one argument`;
and `singleArg` returns an argument without error exactly when the list has
length 1, the argument being the sole element. -/
theorem single_arg_arity (E : Deps) (m m1 : Middleware) (pre post : List Entry) (e : Entry)
    (ds rest : List Directive) (d : Directive) (st1 : Building)
    (hpre : UnmarshalCaddyfile E m pre = (m1, none))
    (hblock : e.block = ds ++ d :: rest)
    (hds : block E (start E e) ds = .ok st1)
    (hname : d.name ∈ singleArgDirectives)
    (hlen : d.args.length ≠ 1) :
    UnmarshalCaddyfile E m (pre ++ e :: post)
        = (m1, some (d.name ++ " expects exactly one argument"))
    ∧ (∀ (args : List String) (desc a : String), singleArg args desc = .ok a ↔ args = [a])
    ∧ (∀ (args : List String) (desc : String),
        (∃ a, singleArg args desc = .ok a) ↔ args.length = 1) := by
  refine ⟨?_, ?_, ?_⟩
  · exact unmarshal_error_at E m m1 pre post e _ hpre
      (entry_error_at E e ds rest d st1 _ hblock hds (directive_arity E st1 d hname hlen))
  · intro args desc a
    constructor
    · exact singleArg_ok args desc a
    · rintro rfl
      rfl
  · intro args desc
    constructor
    · rintro ⟨a, ha⟩
      rw [singleArg_ok args desc a ha]
      rfl
    · intro hl
      cases args with
      | nil => simp at hl
      | cons a as =>
        cases as with
        | nil => exact ⟨a, rfl⟩
        | cons b bs => simp at hl

/-- Witness of C11: `methods` with no argument and `max_age` with two both
fail with the arity error. -/
theorem single_arg_arity_witness :
    UnmarshalCaddyfile sampleDeps ⟨[]⟩ ([] ++ ⟨[], [⟨"methods", []⟩]⟩ :: [])
        = (⟨[]⟩, some ((Directive.mk "methods" []).name ++ " expects exactly one argument"))
    ∧ parseCaddyfile sampleDeps [⟨[], [⟨"max_age", ["1", "2"]⟩]⟩]
        = (⟨[]⟩, some "max_age expects exactly one argument") :=
  ⟨(single_arg_arity sampleDeps ⟨[]⟩ ⟨[]⟩ [] [] ⟨[], [⟨"methods", []⟩]⟩ [] []
      ⟨"methods", []⟩ (start sampleDeps ⟨[], [⟨"methods", []⟩]⟩) rfl rfl rfl
      (by decide) (by decide)).1,
   by decide⟩

/-- C14: a configuration of `n` entries that `parseCaddyfile` parses without
error yields exactly `n` rules, the `i`-th being the rule built from the `i`-th
entry, whose `Path` is that entry's first positional argument, or `/` when it
has none. -/
theorem one_rule_per_entry (E : Deps) (cfg : List Entry) (m : Middleware)
    (h : parseCaddyfile E cfg = (m, none)) :
    m.Rules.length = cfg.length
    ∧ ∀ (i : Nat) (e : Entry), cfg[i]? = some e →
        ∃ r, m.Rules[i]? = some r ∧ entry E e = .ok r ∧ r.Path = e.args.head?.getD "/" := by
  obtain ⟨rules, hall, hr⟩ := unmarshal_ok E cfg ⟨[]⟩ m h
  simp only [List.nil_append] at hr
  refine ⟨by rw [hr]; exact hall.length_eq.symm, ?_⟩
  intro i e hi
  obtain ⟨r, hri, her⟩ := forall₂_getElem? _ cfg rules hall i e hi
  exact ⟨r, by rw [hr]; exact hri, her, entry_path E e r her⟩

/-- Witness of C14: `cors /a`, `cors` and `cors /b x.com` give three rules with
the paths `/a`, `/`, `/b`. -/
theorem one_rule_per_entry_witness :
    (parseCaddyfile sampleDeps [⟨["/a"], []⟩, ⟨[], []⟩, ⟨["/b", "x.com"], []⟩]).1.Rules.map
        (fun r => r.Path) = ["/a", "/", "/b"]
    ∧ (parseCaddyfile sampleDeps
        [⟨["/a"], []⟩, ⟨[], []⟩, ⟨["/b", "x.com"], []⟩]).1.Rules.length
        = [Entry.mk ["/a"] [], ⟨[], []⟩, ⟨["/b", "x.com"], []⟩].length :=
  ⟨by decide,
   (one_rule_per_entry sampleDeps [⟨["/a"], []⟩, ⟨[], []⟩, ⟨["/b", "x.com"], []⟩] _ rfl).1⟩

/-- C15: when entries parse up to an entry in whose block lines parse up to a
line that fails, `UnmarshalCaddyfile` returns the error of that line, the first
malformed one in document order, and the rules are exactly those of the entries
before the failing one: neither the rule under construction nor any rule of a
later entry is added.  The same holds of `parseCaddyfile`. -/
theorem fail_fast_no_partial_rule (E : Deps) (m m1 : Middleware) (pre post : List Entry)
    (e : Entry) (ds rest : List Directive) (d : Directive) (st1 : Building) (msg : String)
    (hpre : UnmarshalCaddyfile E m pre = (m1, none))
    (hblock : e.block = ds ++ d :: rest)
    (hds : block E (start E e) ds = .ok st1)
    (hd : directive E st1 d = .error msg) :
    UnmarshalCaddyfile E m (pre ++ e :: post) = (m1, some msg)
    ∧ (∃ rules, List.Forall₂ (fun x r => entry E x = .ok r) pre rules
        ∧ m1.Rules = m.Rules ++ rules ∧ rules.length = pre.length)
    ∧ (m.Rules = [] → parseCaddyfile E (pre ++ e :: post) = (m1, some msg)) := by
  have hres := unmarshal_error_at E m m1 pre post e msg hpre
    (entry_error_at E e ds rest d st1 msg hblock hds hd)
  obtain ⟨rules, hall, hr⟩ := unmarshal_ok E pre m m1 hpre
  refine ⟨hres, ⟨rules, hall, hr, hall.length_eq.symm⟩, ?_⟩
  intro hm
  unfold parseCaddyfile
  cases m
  simp only at hm
  subst hm
  exact hres

/-- Witness of C15: `cors /a` then `cors /b` with the block `methods GET`,
`max_age abc`, `foo` then `cors /c`: the error is that of `max_age` and the
only rule is that of `/a`. -/
theorem fail_fast_no_partial_rule_witness :
    UnmarshalCaddyfile sampleDeps ⟨[]⟩
        ([⟨["/a"], []⟩]
          ++ ⟨["/b"], [⟨"methods", ["GET"]⟩, ⟨"max_age", ["abc"]⟩, ⟨"foo", []⟩]⟩
            :: [⟨["/c"], []⟩])
      = (⟨[CorsRule.mk sampleDeps.Default "/a"]⟩, some "max_age must be valid int") :=
  (fail_fast_no_partial_rule sampleDeps ⟨[]⟩ ⟨[CorsRule.mk sampleDeps.Default "/a"]⟩
    [⟨["/a"], []⟩] [⟨["/c"], []⟩]
    ⟨["/b"], [⟨"methods", ["GET"]⟩, ⟨"max_age", ["abc"]⟩, ⟨"foo", []⟩]⟩
    [⟨"methods", ["GET"]⟩] [⟨"foo", []⟩] ⟨"max_age", ["abc"]⟩
    (Effect.apply (start sampleDeps ⟨["/b"], []⟩) (.methods "GET"))
    "max_age must be valid int" rfl rfl rfl rfl).1

/-- C20: when two configurations each parse without error, parsing the entries
of the first followed by those of the second yields the rules of the first
followed by the rules of the second: the rule of an entry is built from that
entry alone. -/
theorem rules_built_independently (E : Deps) (A B : List Entry) (mA mB : Middleware)
    (hA : parseCaddyfile E A = (mA, none)) (hB : parseCaddyfile E B = (mB, none)) :
    parseCaddyfile E (A ++ B) = ({ Rules := mA.Rules ++ mB.Rules }, none) := by
  obtain ⟨rulesA, hallA, hrA⟩ := unmarshal_ok E A ⟨[]⟩ mA hA
  obtain ⟨rulesB, hallB, hrB⟩ := unmarshal_ok E B ⟨[]⟩ mB hB
  simp only [List.nil_append] at hrA hrB
  unfold parseCaddyfile
  rw [unmarshal_append E A B rulesA ⟨[]⟩ hallA, unmarshal_all_ok E B rulesB _ hallB, hrA, hrB]
  simp

/-- Witness of C20: `cors /a a.com` with an `origin_regexp` line, then `cors`
alone: the second rule has the default origins and no pattern. -/
theorem rules_built_independently_witness :
    parseCaddyfile sampleDeps
        ([⟨["/a", "a.com"], [⟨"origin_regexp", ["^x$"]⟩]⟩] ++ [⟨[], []⟩])
      = ({ Rules :=
            [CorsRule.mk { sampleDeps.Default with
                AllowedOrigins := ["a.com"], OriginRegexps := [⟨"^x$"⟩] } "/a"]
            ++ [CorsRule.mk sampleDeps.Default "/"] }, none) :=
  rules_built_independently sampleDeps [⟨["/a", "a.com"], [⟨"origin_regexp", ["^x$"]⟩]⟩]
    [⟨[], []⟩] _ _ rfl rfl

/-! ## Parsing: what a block leaves unchanged -/

/-- A quantity that no effect with an admitted name changes is unchanged by a
block whose lines all have admitted names. -/
theorem block_frame {α : Type} (E : Deps) (f : Building → α) (admitted : String → Prop)
    (hf : ∀ (st : Building) (eff : Effect), admitted eff.name → f (eff.apply st) = f st)
    (ds : List Directive) (st st1 : Building) (h : block E st ds = .ok st1)
    (hds : ∀ d ∈ ds, admitted d.name) : f st1 = f st := by
  induction ds generalizing st with
  | nil =>
    simp only [block] at h
    injection h with h
    rw [h]
  | cons d ds ih =>
    simp only [block] at h
    cases hd : directive E st d with
    | error e => simp [hd] at h
    | ok st2 =>
      simp only [hd] at h
      obtain ⟨eff, hr, rfl⟩ := (directive_ok_iff E st st2 d).mp hd
      have hn : admitted eff.name := by
        rw [← reads_name E d eff hr]
        exact hds d (List.mem_cons_self _ _)
      rw [ih _ h (fun x hx => hds x (List.mem_cons_of_mem _ hx)), hf st eff hn]

theorem effect_origins_frame (st : Building) (eff : Effect)
    (hn : eff.name ≠ "origin" ∧ eff.name ≠ "origin_regexp") :
    ((eff.apply st).anyOrigins, (eff.apply st).rule.Conf.AllowedOrigins)
      = (st.anyOrigins, st.rule.Conf.AllowedOrigins) := by
  cases eff <;> first
    | exact absurd rfl hn.1
    | exact absurd rfl hn.2
    | rfl

theorem effect_methods_frame (st : Building) (eff : Effect) (hn : eff.name ≠ "methods") :
    (eff.apply st).rule.Conf.AllowedMethods = st.rule.Conf.AllowedMethods := by
  obtain ⟨rule, any⟩ := st
  cases eff <;> first
    | exact absurd rfl hn
    | (cases any <;> simp [Effect.apply, clearOrigins, foldl_appendOrigins_eq])

theorem effect_allowedHeaders_frame (st : Building) (eff : Effect)
    (hn : eff.name ≠ "allowed_headers") :
    (eff.apply st).rule.Conf.AllowedHeaders = st.rule.Conf.AllowedHeaders := by
  obtain ⟨rule, any⟩ := st
  cases eff <;> first
    | exact absurd rfl hn
    | (cases any <;> simp [Effect.apply, clearOrigins, foldl_appendOrigins_eq])

theorem effect_exposedHeaders_frame (st : Building) (eff : Effect)
    (hn : eff.name ≠ "exposed_headers") :
    (eff.apply st).rule.Conf.ExposedHeaders = st.rule.Conf.ExposedHeaders := by
  obtain ⟨rule, any⟩ := st
  cases eff <;> first
    | exact absurd rfl hn
    | (cases any <;> simp [Effect.apply, clearOrigins, foldl_appendOrigins_eq])

/-- The state before the block of an entry without positional origins: the
default configuration, the path of the entry, `anyOrigins` unset. -/
theorem start_no_positional (E : Deps) (e : Entry) (hpos : e.args.drop 1 = []) :
    start E e = { rule := { Conf := E.Default, Path := e.args.head?.getD "/" },
                  anyOrigins := false } := by
  unfold start
  rw [hpos]
  cases e.args <;> rfl

/-- The patterns of a block that parses: appended in order to those present,
one per `origin_regexp` line, each the compiled argument of its line. -/
theorem block_regexps (E : Deps) (ds : List Directive) (st st1 : Building)
    (h : block E st ds = .ok st1) :
    ∃ rs, List.Forall₂ (fun d p => ∃ arg, d.args = [arg] ∧ E.Compile arg = .ok p)
        (ds.filter (fun d => d.name = "origin_regexp")) rs
      ∧ st1.rule.Conf.OriginRegexps = st.rule.Conf.OriginRegexps ++ rs := by
  induction ds generalizing st with
  | nil =>
    simp only [block] at h
    injection h with h
    subst h
    exact ⟨[], by simp, by simp⟩
  | cons d ds ih =>
    simp only [block] at h
    cases hd : directive E st d with
    | error e => simp [hd] at h
    | ok st2 =>
      simp only [hd] at h
      obtain ⟨rs, hall, hrs⟩ := ih st2 h
      obtain ⟨eff, hr, rfl⟩ := (directive_ok_iff E st st2 d).mp hd
      obtain ⟨rule, any⟩ := st
      cases eff with
      | originRegexp p =>
        obtain ⟨hn, arg, ha, hc⟩ := hr
        refine ⟨p :: rs, ?_, ?_⟩
        · rw [List.filter_cons_of_pos (by simpa using hn)]
          exact List.Forall₂.cons ⟨arg, ha, hc⟩ hall
        · rw [hrs]
          cases any <;> simp [Effect.apply, clearOrigins]
      | origin a =>
        refine ⟨rs, ?_, ?_⟩
        · rw [List.filter_cons_of_neg (by simp [hr.1])]
          exact hall
        · rw [hrs]
          cases any <;> simp [Effect.apply, clearOrigins, foldl_appendOrigins_eq]
      | methods a =>
        exact ⟨rs, by rw [List.filter_cons_of_neg (by simp [hr.1])]; exact hall, hrs⟩
      | allowCredentials b =>
        exact ⟨rs, by rw [List.filter_cons_of_neg (by simp [hr.1])]; exact hall, hrs⟩
      | maxAge i =>
        exact ⟨rs, by rw [List.filter_cons_of_neg (by simp [hr.1])]; exact hall, hrs⟩
      | allowedHeaders a =>
        exact ⟨rs, by rw [List.filter_cons_of_neg (by simp [hr.1])]; exact hall, hrs⟩
      | exposedHeaders a =>
        exact ⟨rs, by rw [List.filter_cons_of_neg (by simp [hr.1])]; exact hall, hrs⟩

/-- The flag `anyOrigins` is never unset by a line, and is set by `origin` and
by `origin_regexp`. -/
theorem block_anyOrigins (E : Deps) (ds : List Directive) (st st1 : Building)
    (h : block E st ds = .ok st1)
    (hset : (∃ d ∈ ds, d.name = "origin" ∨ d.name = "origin_regexp") ∨ st.anyOrigins = true) :
    st1.anyOrigins = true := by
  induction ds generalizing st with
  | nil =>
    simp only [block] at h
    injection h with h
    subst h
    rcases hset with ⟨d, hd, _⟩ | hany
    · cases hd
    · exact hany
  | cons d ds ih =>
    simp only [block] at h
    cases hd : directive E st d with
    | error e => simp [hd] at h
    | ok st2 =>
      simp only [hd] at h
      obtain ⟨eff, hr, rfl⟩ := (directive_ok_iff E st st2 d).mp hd
      apply ih _ h
      rcases hset with ⟨x, hx, hxn⟩ | hany
      · rcases List.mem_cons.mp hx with rfl | hx
        · right
          have hname := reads_name E x eff hr
          cases eff <;> first
            | rfl
            | (rw [hname] at hxn; simp [Effect.name] at hxn)
        · exact Or.inl ⟨x, hx, hxn⟩
      · right
        cases eff <;> first
          | rfl
          | exact hany

/-! ## Parsing: defaults, patterns and string fields -/

/-- C12: in a configuration that parses without error, the rule of an entry
with no positional origin argument and no `origin` line but at least one
`origin_regexp` line has no literal origin, and its patterns are the default
ones followed by the compiled arguments of the `origin_regexp` lines in order;
and an `origin_regexp` line whose argument does not compile, reached after
entries and lines that parse, makes `UnmarshalCaddyfile` return the error
`could no compile regexp: ...`. -/
theorem origin_regexp_only_source (E : Deps) :
    (∀ (m0 m : Middleware) (cfg : List Entry) (i : Nat) (e : Entry),
        UnmarshalCaddyfile E m0 cfg = (m, none) → cfg[i]? = some e →
        e.args.drop 1 = [] → (∀ d ∈ e.block, d.name ≠ "origin") →
        (∃ d ∈ e.block, d.name = "origin_regexp") →
        ∃ r, m.Rules[m0.Rules.length + i]? = some r
          ∧ r.Conf.AllowedOrigins = []
          ∧ ∃ rs, List.Forall₂ (fun d p => ∃ arg, d.args = [arg] ∧ E.Compile arg = .ok p)
                (e.block.filter (fun d => d.name = "origin_regexp")) rs
              ∧ r.Conf.OriginRegexps = E.Default.OriginRegexps ++ rs)
    ∧ (∀ (m m1 : Middleware) (pre post : List Entry) (e : Entry) (ds rest : List Directive)
        (arg err : String) (st1 : Building),
        UnmarshalCaddyfile E m pre = (m1, none) →
        e.block = ds ++ ⟨"origin_regexp", [arg]⟩ :: rest →
        block E (start E e) ds = .ok st1 →
        E.Compile arg = .error err →
        UnmarshalCaddyfile E m (pre ++ e :: post)
          = (m1, some ("could no compile regexp: " ++ err))) := by
  constructor
  · intro m0 m cfg i e h hi hpos hno hk
    obtain ⟨rules, hall, hr⟩ := unmarshal_ok E cfg m0 m h
    obtain ⟨r, hri, her⟩ := forall₂_getElem? _ cfg rules hall i e hi
    obtain ⟨st, hb, rfl⟩ := entry_ok E e r her
    refine ⟨st.rule, ?_, ?_, ?_⟩
    · rw [hr, List.getElem?_append_right (Nat.le_add_right _ _)]
      simpa using hri
    · have hany : st.anyOrigins = true := by
        obtain ⟨d, hd, hdn⟩ := hk
        exact block_anyOrigins E e.block _ st hb (Or.inl ⟨d, hd, Or.inr hdn⟩)
      obtain ⟨hg, _⟩ := gathered_block E e.block _ st hb
      have hfil : e.block.filter (fun d => d.name = "origin") = [] := by
        rw [List.filter_eq_nil_iff]
        intro d hd
        simpa using hno d hd
      rw [hfil, (gathered_start E e).1, hpos] at hg
      simpa [gathered, hany] using hg
    · obtain ⟨rs, hrs, heq⟩ := block_regexps E e.block _ st hb
      refine ⟨rs, hrs, ?_⟩
      rw [heq, start_no_positional E e hpos]
  · intro m m1 pre post e ds rest arg err st1 hpre hblock hds hc
    exact unmarshal_error_at E m m1 pre post e _ hpre
      (entry_error_at E e ds rest _ st1 _ hblock hds (directive_regexp_error E st1 arg err hc))

/-- Witness of C12: `cors /x` with the lines `origin_regexp ^a$` and
`origin_regexp ^b$` has no literal origin and the two patterns; with the line
`origin_regexp (` parsing fails. -/
theorem origin_regexp_only_source_witness :
    (∃ r, (UnmarshalCaddyfile sampleDeps ⟨[]⟩
            [⟨["/x"], [⟨"origin_regexp", ["^a$"]⟩, ⟨"origin_regexp", ["^b$"]⟩]⟩]).1.Rules[0 + 0]?
          = some r
        ∧ r.Conf.AllowedOrigins = []
        ∧ ∃ rs, List.Forall₂
              (fun d p => ∃ arg, d.args = [arg] ∧ sampleDeps.Compile arg = .ok p)
              ((Entry.mk ["/x"]
                  [⟨"origin_regexp", ["^a$"]⟩, ⟨"origin_regexp", ["^b$"]⟩]).block.filter
                (fun d => d.name = "origin_regexp")) rs
            ∧ r.Conf.OriginRegexps = sampleDeps.Default.OriginRegexps ++ rs)
    ∧ (parseCaddyfile sampleDeps
          [⟨["/x"], [⟨"origin_regexp", ["^a$"]⟩, ⟨"origin_regexp", ["^b$"]⟩]⟩]).1.Rules.map
        (fun r => (r.Conf.AllowedOrigins, r.Conf.OriginRegexps))
        = [([], [⟨"^a$"⟩, ⟨"^b$"⟩])]
    ∧ UnmarshalCaddyfile sampleDeps ⟨[]⟩ ([] ++ ⟨["/x"], [⟨"origin_regexp", ["("]⟩]⟩ :: [])
        = (⟨[]⟩, some ("could no compile regexp: " ++ "missing closing )")) :=
  ⟨(origin_regexp_only_source sampleDeps).1 ⟨[]⟩ _
      [⟨["/x"], [⟨"origin_regexp", ["^a$"]⟩, ⟨"origin_regexp", ["^b$"]⟩]⟩] 0
      ⟨["/x"], [⟨"origin_regexp", ["^a$"]⟩, ⟨"origin_regexp", ["^b$"]⟩]⟩ rfl rfl rfl
      (by decide) (by decide),
   by decide,
   (origin_regexp_only_source sampleDeps).2 ⟨[]⟩ ⟨[]⟩ [] []
      ⟨["/x"], [⟨"origin_regexp", ["("]⟩]⟩ [] [] "(" "missing closing )"
      (start sampleDeps ⟨["/x"], []⟩) rfl rfl rfl rfl⟩

/-- C13: in a configuration that parses without error, the rule of an entry
with no positional argument and no line is the path `/` with the default
configuration, equal in every field; and the rule of an entry with no
positional origin argument, no `origin` line and no `origin_regexp` line has
the default `AllowedOrigins`. -/
theorem nothing_specified_keeps_defaults (E : Deps) (m0 m : Middleware) (cfg : List Entry)
    (i : Nat) (e : Entry) (h : UnmarshalCaddyfile E m0 cfg = (m, none))
    (hi : cfg[i]? = some e) :
    (e.args = [] → e.block = [] →
        m.Rules[m0.Rules.length + i]? = some { Conf := E.Default, Path := "/" })
    ∧ (e.args.drop 1 = [] →
        (∀ d ∈ e.block, d.name ≠ "origin" ∧ d.name ≠ "origin_regexp") →
        ∃ r, m.Rules[m0.Rules.length + i]? = some r
          ∧ r.Conf.AllowedOrigins = E.Default.AllowedOrigins) := by
  obtain ⟨rules, hall, hr⟩ := unmarshal_ok E cfg m0 m h
  obtain ⟨r, hri, her⟩ := forall₂_getElem? _ cfg rules hall i e hi
  have hget : m.Rules[m0.Rules.length + i]? = some r := by
    rw [hr, List.getElem?_append_right (Nat.le_add_right _ _)]
    simpa using hri
  constructor
  · intro hargs hblock
    obtain ⟨args, ds⟩ := e
    simp only at hargs hblock
    subst hargs hblock
    have : r = { Conf := E.Default, Path := "/" } := by
      have h2 : entry E ⟨[], []⟩ = .ok { Conf := E.Default, Path := "/" } := rfl
      rw [h2] at her
      injection her with her
      exact her.symm
    rw [hget, this]
  · intro hpos hno
    obtain ⟨st, hb, rfl⟩ := entry_ok E e r her
    refine ⟨st.rule, hget, ?_⟩
    have hf := block_frame E (fun s => (s.anyOrigins, s.rule.Conf.AllowedOrigins))
      (fun n => n ≠ "origin" ∧ n ≠ "origin_regexp") effect_origins_frame e.block _ st hb hno
    rw [start_no_positional E e hpos] at hf
    simpa using congrArg Prod.snd hf

/-- Witness of C13: `cors` alone gives the default rule; `cors /x` with the
line `methods GET` keeps the default origins. -/
theorem nothing_specified_keeps_defaults_witness :
    (UnmarshalCaddyfile sampleDeps ⟨[]⟩
        [⟨[], []⟩, ⟨["/x"], [⟨"methods", ["GET"]⟩]⟩]).1.Rules[0 + 0]?
      = some { Conf := sampleDeps.Default, Path := "/" }
    ∧ ∃ r, (UnmarshalCaddyfile sampleDeps ⟨[]⟩
        [⟨[], []⟩, ⟨["/x"], [⟨"methods", ["GET"]⟩]⟩]).1.Rules[0 + 1]? = some r
      ∧ r.Conf.AllowedOrigins = sampleDeps.Default.AllowedOrigins :=
  ⟨(nothing_specified_keeps_defaults sampleDeps ⟨[]⟩ _
      [⟨[], []⟩, ⟨["/x"], [⟨"methods", ["GET"]⟩]⟩] 0 ⟨[], []⟩ rfl rfl).1 rfl rfl,
   (nothing_specified_keeps_defaults sampleDeps ⟨[]⟩ _
      [⟨[], []⟩, ⟨["/x"], [⟨"methods", ["GET"]⟩]⟩] 1 ⟨["/x"], [⟨"methods", ["GET"]⟩]⟩
      rfl rfl).2 rfl (by decide)⟩

theorem block_append_ok (E : Deps) (ds ds2 : List Directive) (st st1 : Building)
    (h : block E st (ds ++ ds2) = .ok st1) :
    ∃ sa, block E st ds = .ok sa ∧ block E sa ds2 = .ok st1 := by
  cases hb : block E st ds with
  | ok sa =>
    rw [block_append E ds ds2 st sa hb] at h
    exact ⟨sa, rfl, h⟩
  | error err =>
    exfalso
    induction ds generalizing st with
    | nil => simp [block] at hb
    | cons d ds ih =>
      simp only [List.cons_append, block] at h hb
      cases hd : directive E st d with
      | error e => simp [hd] at h
      | ok st2 =>
        simp only [hd] at h hb
        exact ih st2 h hb

/-- A string field set by a line keeps the value of the last such line of a
block that parses. -/
theorem block_last_wins (E : Deps) (f : Building → String) (name s : String)
    (hset : ∀ st st1, directive E st ⟨name, [s]⟩ = .ok st1 → f st1 = s)
    (hframe : ∀ (st : Building) (eff : Effect), eff.name ≠ name → f (eff.apply st) = f st)
    (ds1 ds2 : List Directive) (st st1 : Building)
    (h : block E st (ds1 ++ ⟨name, [s]⟩ :: ds2) = .ok st1)
    (hlast : ∀ d ∈ ds2, d.name ≠ name) : f st1 = s := by
  obtain ⟨sa, _, h2⟩ := block_append_ok E ds1 _ st st1 h
  simp only [block] at h2
  cases hd : directive E sa ⟨name, [s]⟩ with
  | error e => simp [hd] at h2
  | ok sb =>
    simp only [hd] at h2
    rw [block_frame E f (fun n => n ≠ name) hframe ds2 sb st1 h2 hlast]
    exact hset sa sb hd

/-- C16: `methods s`, `allowed_headers s` and `exposed_headers s` each parse
for every `s` and set their own field to `s` as written, leaving the path, the
flag and every other field of the configuration as they were; and in a block
that parses, each of the three fields has the argument of the last line of its
name. -/
theorem string_directives_verbatim (E : Deps) (st : Building) (s : String) :
    directive E st ⟨"methods", [s]⟩
        = .ok { st with rule := { st.rule with Conf := { st.rule.Conf with
                  AllowedMethods := s } } }
    ∧ directive E st ⟨"allowed_headers", [s]⟩
        = .ok { st with rule := { st.rule with Conf := { st.rule.Conf with
                  AllowedHeaders := s } } }
    ∧ directive E st ⟨"exposed_headers", [s]⟩
        = .ok { st with rule := { st.rule with Conf := { st.rule.Conf with
                  ExposedHeaders := s } } }
    ∧ (∀ (ds1 ds2 : List Directive) (st1 : Building),
        block E st (ds1 ++ ⟨"methods", [s]⟩ :: ds2) = .ok st1 →
        (∀ d ∈ ds2, d.name ≠ "methods") → st1.rule.Conf.AllowedMethods = s)
    ∧ (∀ (ds1 ds2 : List Directive) (st1 : Building),
        block E st (ds1 ++ ⟨"allowed_headers", [s]⟩ :: ds2) = .ok st1 →
        (∀ d ∈ ds2, d.name ≠ "allowed_headers") → st1.rule.Conf.AllowedHeaders = s)
    ∧ (∀ (ds1 ds2 : List Directive) (st1 : Building),
        block E st (ds1 ++ ⟨"exposed_headers", [s]⟩ :: ds2) = .ok st1 →
        (∀ d ∈ ds2, d.name ≠ "exposed_headers") → st1.rule.Conf.ExposedHeaders = s) := by
  refine ⟨by simp [directive, singleArg], by simp [directive, singleArg],
    by simp [directive, singleArg], ?_, ?_, ?_⟩
  · intro ds1 ds2 st1 h hlast
    refine block_last_wins E (fun b => b.rule.Conf.AllowedMethods) "methods" s ?_
      effect_methods_frame ds1 ds2 st st1 h hlast
    intro sa sb hd
    have : directive E sa ⟨"methods", [s]⟩
        = .ok { sa with rule := { sa.rule with Conf := { sa.rule.Conf with
                  AllowedMethods := s } } } := by simp [directive, singleArg]
    rw [this] at hd
    injection hd with hd
    rw [← hd]
  · intro ds1 ds2 st1 h hlast
    refine block_last_wins E (fun b => b.rule.Conf.AllowedHeaders) "allowed_headers" s ?_
      effect_allowedHeaders_frame ds1 ds2 st st1 h hlast
    intro sa sb hd
    have : directive E sa ⟨"allowed_headers", [s]⟩
        = .ok { sa with rule := { sa.rule with Conf := { sa.rule.Conf with
                  AllowedHeaders := s } } } := by simp [directive, singleArg]
    rw [this] at hd
    injection hd with hd
    rw [← hd]
  · intro ds1 ds2 st1 h hlast
    refine block_last_wins E (fun b => b.rule.Conf.ExposedHeaders) "exposed_headers" s ?_
      effect_exposedHeaders_frame ds1 ds2 st st1 h hlast
    intro sa sb hd
    have : directive E sa ⟨"exposed_headers", [s]⟩
        = .ok { sa with rule := { sa.rule with Conf := { sa.rule.Conf with
                  ExposedHeaders := s } } } := by simp [directive, singleArg]
    rw [this] at hd
    injection hd with hd
    rw [← hd]

/-- Witness of C16: with the lines `methods GET`, `max_age 5`, `methods  a, B `
the methods are ` a, B ` as written, and the rule differs from the default one
by the methods and the age only. -/
theorem string_directives_verbatim_witness :
    (Effect.apply (Effect.apply (start sampleDeps ⟨[], []⟩) (.maxAge 5))
        (.methods " a, B ")).rule.Conf.AllowedMethods = " a, B "
    ∧ parseCaddyfile sampleDeps
        [⟨[], [⟨"methods", ["GET"]⟩, ⟨"max_age", ["5"]⟩, ⟨"methods", [" a, B "]⟩]⟩]
      = (⟨[CorsRule.mk { sampleDeps.Default with AllowedMethods := " a, B ", MaxAge := 5 }
            "/"]⟩, none) :=
  ⟨(string_directives_verbatim sampleDeps (start sampleDeps ⟨[], []⟩) " a, B ").2.2.2.1
      [⟨"methods", ["GET"]⟩, ⟨"max_age", ["5"]⟩] [] _ rfl (by decide),
   by decide⟩

/-! ## Parsing: order of the lines, empty `origin` -/

/-- Two lines of different names that parse one after the other parse in the
other order, to the same state. -/
theorem directive_swap (E : Deps) (st s1 s2 : Building) (x y : Directive)
    (hne : x.name ≠ y.name) (hx : directive E st x = .ok s1)
    (hy : directive E s1 y = .ok s2) :
    ∃ t1, directive E st y = .ok t1 ∧ directive E t1 x = .ok s2 := by
  obtain ⟨ex, hrx, rfl⟩ := (directive_ok_iff E st s1 x).mp hx
  obtain ⟨ey, hry, rfl⟩ := (directive_ok_iff E _ s2 y).mp hy
  have hnames : ex.name ≠ ey.name := by
    rw [← reads_name E x ex hrx, ← reads_name E y ey hry]
    exact hne
  refine ⟨ey.apply st, (directive_ok_iff E st _ y).mpr ⟨ey, hry, rfl⟩, ?_⟩
  exact (directive_ok_iff E _ _ x).mpr ⟨ex, hrx, effect_comm st ex ey hnames⟩

/-- A block with pairwise distinct names that parses, parses to the same state
in any order of its lines. -/
theorem block_perm (E : Deps) (ds ds2 : List Directive) (hp : ds.Perm ds2)
    (hnd : (ds.map (fun d => d.name)).Nodup) (st st1 : Building)
    (h : block E st ds = .ok st1) : block E st ds2 = .ok st1 := by
  induction hp generalizing st with
  | nil => exact h
  | cons x _ ih =>
    simp only [block] at h ⊢
    cases hd : directive E st x with
    | error e => simp [hd] at h
    | ok st2 =>
      simp only [hd] at h ⊢
      exact ih (List.nodup_cons.mp hnd).2 st2 h
  | swap x y l =>
    simp only [List.map_cons, List.nodup_cons, List.mem_cons, not_or] at hnd
    have hne : y.name ≠ x.name := hnd.1.1
    simp only [block] at h
    cases hy : directive E st y with
    | error e => simp [hy] at h
    | ok s1 =>
      simp only [hy] at h
      cases hx : directive E s1 x with
      | error e => simp [hx] at h
      | ok s2 =>
        simp only [hx] at h
        obtain ⟨t1, h1, h2⟩ := directive_swap E st s1 s2 y x hne hy hx
        simp only [block, h1, h2]
        exact h
  | trans hp1 _ ih1 ih2 =>
    exact ih2 ((hp1.map _).nodup_iff.mp hnd) st (ih1 hnd st h)

/-- C17: an entry whose block consists of well-formed lines with pairwise
distinct names parses, and with its lines in any other order it parses to the
same rule: same path and same configuration, field by field. -/
theorem directive_order_irrelevant (E : Deps) (e : Entry)
    (hwf : ∀ d ∈ e.block, ∃ eff, reads E d eff)
    (hnd : (e.block.map (fun d => d.name)).Nodup) :
    ∃ r, entry E e = .ok r
      ∧ ∀ ds2 : List Directive, e.block.Perm ds2 → entry E { e with block := ds2 } = .ok r := by
  obtain ⟨st1, hb⟩ := block_ok_of_reads E e.block (start E e) hwf
  refine ⟨st1.rule, by simp [entry, hb], ?_⟩
  intro ds2 hp
  have hb2 := block_perm E e.block ds2 hp hnd (start E e) st1 hb
  have hs : start E { e with block := ds2 } = start E e := rfl
  simp [entry, hs, hb2]

/-- Witness of C17: `cors /x` with the lines `origin a.com,b.com`,
`origin_regexp ^c$`, `max_age 7` and with the same lines in the order
`origin_regexp`, `max_age`, `origin` gives the same rule, with the origins
`a.com`, `b.com` in both. -/
theorem directive_order_irrelevant_witness :
    entry sampleDeps
        ⟨["/x"], [⟨"origin", ["a.com,b.com"]⟩, ⟨"origin_regexp", ["^c$"]⟩, ⟨"max_age", ["7"]⟩]⟩
      = entry sampleDeps
        ⟨["/x"], [⟨"origin_regexp", ["^c$"]⟩, ⟨"max_age", ["7"]⟩, ⟨"origin", ["a.com,b.com"]⟩]⟩
    ∧ entry sampleDeps
        ⟨["/x"], [⟨"origin_regexp", ["^c$"]⟩, ⟨"max_age", ["7"]⟩, ⟨"origin", ["a.com,b.com"]⟩]⟩
      = .ok (CorsRule.mk { sampleDeps.Default with
              AllowedOrigins := ["a.com", "b.com"], OriginRegexps := [⟨"^c$"⟩], MaxAge := 7 }
            "/x")
    ∧ ∃ r, entry sampleDeps
          ⟨["/x"], [⟨"origin", ["a.com,b.com"]⟩, ⟨"origin_regexp", ["^c$"]⟩,
            ⟨"max_age", ["7"]⟩]⟩ = .ok r
        ∧ ∀ ds2 : List Directive,
            (Entry.mk ["/x"] [⟨"origin", ["a.com,b.com"]⟩, ⟨"origin_regexp", ["^c$"]⟩,
              ⟨"max_age", ["7"]⟩]).block.Perm ds2 →
            entry sampleDeps
              { (Entry.mk ["/x"] [⟨"origin", ["a.com,b.com"]⟩, ⟨"origin_regexp", ["^c$"]⟩,
                  ⟨"max_age", ["7"]⟩]) with block := ds2 } = .ok r :=
  ⟨rfl, rfl,
   directive_order_irrelevant sampleDeps
    ⟨["/x"], [⟨"origin", ["a.com,b.com"]⟩, ⟨"origin_regexp", ["^c$"]⟩, ⟨"max_age", ["7"]⟩]⟩
    (by
      intro d hd
      simp only [List.mem_cons, List.mem_singleton, List.not_mem_nil, or_false] at hd
      rcases hd with rfl | rfl | rfl
      · exact ⟨.origin ["a.com,b.com"], rfl, rfl⟩
      · exact ⟨.originRegexp ⟨"^c$"⟩, rfl, "^c$", rfl, rfl⟩
      · exact ⟨.maxAge 7, rfl, "7", rfl, rfl⟩)
    (by decide)⟩

/-- C19: in an entry with no positional origin argument whose first line named
`origin` or `origin_regexp` is `origin` with no argument, that line parses (no
arity check) and leaves the allow-list empty; the entry parses when its other
lines are well-formed, and its rule then has as `AllowedOrigins` the pieces of
the `origin` lines that follow, hence the empty list, not the default origins,
when those lines add none. -/
theorem origin_without_arguments_empties (E : Deps) (e : Entry) (ds rest : List Directive)
    (hpos : e.args.drop 1 = [])
    (hblock : e.block = ds ++ ⟨"origin", []⟩ :: rest)
    (hfirst : ∀ d ∈ ds, d.name ≠ "origin" ∧ d.name ≠ "origin_regexp") :
    (∀ st : Building, directive E st ⟨"origin", []⟩
        = .ok { rule := if !st.anyOrigins then clearOrigins st.rule else st.rule,
                anyOrigins := true })
    ∧ ((∀ d ∈ ds ++ rest, ∃ eff, reads E d eff) → ∃ r, entry E e = .ok r)
    ∧ (∀ st1, block E (start E e) ds = .ok st1 →
        ∃ st2, block E (start E e) (ds ++ [⟨"origin", []⟩]) = .ok st2
          ∧ st2.rule.Conf.AllowedOrigins = [])
    ∧ (∀ r, entry E e = .ok r →
        r.Conf.AllowedOrigins
          = ((rest.filter (fun d => d.name = "origin")).flatMap (fun d => d.args)).flatMap
              (fun x => Split x ','))
    ∧ (∀ r, entry E e = .ok r → (∀ d ∈ rest, d.name = "origin" → d.args = []) →
        r.Conf.AllowedOrigins = []) := by
  have hdir : ∀ st : Building, directive E st ⟨"origin", []⟩
      = .ok { rule := if !st.anyOrigins then clearOrigins st.rule else st.rule,
              anyOrigins := true } := by
    intro st
    simp [directive]
  have hfil : ds.filter (fun d => d.name = "origin") = [] := by
    rw [List.filter_eq_nil_iff]
    intro d hd
    simpa using (hfirst d hd).1
  have horig : ∀ r, entry E e = .ok r →
      r.Conf.AllowedOrigins
        = ((rest.filter (fun d => d.name = "origin")).flatMap (fun d => d.args)).flatMap
            (fun x => Split x ',') := by
    intro r hr
    have hsrc : e.args.drop 1 ≠ [] ∨ ∃ d ∈ e.block, d.name = "origin" :=
      Or.inr ⟨⟨"origin", []⟩, by simp [hblock], rfl⟩
    rw [entry_origins E e r hr hsrc]
    simp [statedOrigins, originArgs, hpos, hblock, hfil, List.filter_cons]
  refine ⟨hdir, ?_, ?_, horig, ?_⟩
  · intro hwf
    have hall : ∀ d ∈ e.block, ∃ eff, reads E d eff := by
      intro d hd
      rw [hblock] at hd
      rcases List.mem_append.mp hd with hd | hd
      · exact hwf d (List.mem_append_left _ hd)
      · rcases List.mem_cons.mp hd with rfl | hd
        · exact ⟨.origin [], rfl, rfl⟩
        · exact hwf d (List.mem_append_right _ hd)
    obtain ⟨st1, hb⟩ := block_ok_of_reads E e.block (start E e) hall
    exact ⟨st1.rule, by simp [entry, hb]⟩
  · intro st1 hb
    have hf := block_frame E (fun s => (s.anyOrigins, s.rule.Conf.AllowedOrigins))
      (fun n => n ≠ "origin" ∧ n ≠ "origin_regexp") effect_origins_frame ds _ st1 hb hfirst
    rw [start_no_positional E e hpos] at hf
    have hany : st1.anyOrigins = false := by simpa using congrArg Prod.fst hf
    refine ⟨{ rule := clearOrigins st1.rule, anyOrigins := true }, ?_, rfl⟩
    rw [block_append E ds _ _ st1 hb]
    simp [block, hdir, hany]
  · intro r hr hnone
    have hin : (rest.filter (fun d => d.name = "origin")).flatMap (fun d => d.args) = [] := by
      rw [List.flatMap_eq_nil_iff]
      intro d hd
      obtain ⟨hd1, hd2⟩ := List.mem_filter.mp hd
      exact hnone d hd1 (by simpa using hd2)
    rw [horig r hr, hin]
    rfl

/-- Witness of C19: `cors /x` with the lines `methods GET`, `origin` and
`max_age 1` parses and has no allowed origin, the default being `*`. -/
theorem origin_without_arguments_empties_witness :
    entry sampleDeps ⟨["/x"], [⟨"methods", ["GET"]⟩, ⟨"origin", []⟩, ⟨"max_age", ["1"]⟩]⟩
      = .ok (CorsRule.mk { sampleDeps.Default with
              AllowedOrigins := [], AllowedMethods := "GET", MaxAge := 1 } "/x")
    ∧ sampleDeps.Default.AllowedOrigins = ["*"]
    ∧ (CorsRule.mk { sampleDeps.Default with
          AllowedOrigins := [], AllowedMethods := "GET", MaxAge := 1 } "/x").Conf.AllowedOrigins
        = [] :=
  ⟨rfl, rfl,
   (origin_without_arguments_empties sampleDeps
      ⟨["/x"], [⟨"methods", ["GET"]⟩, ⟨"origin", []⟩, ⟨"max_age", ["1"]⟩]⟩
      [⟨"methods", ["GET"]⟩] [⟨"max_age", ["1"]⟩] rfl rfl (by decide)).2.2.2.2 _ rfl
      (by decide)⟩

/-! ## Dispatch: shadowed rules -/

theorem hasPrefix_trans (s p q : String) (h1 : HasPrefix s p = true)
    (h2 : HasPrefix p q = true) : HasPrefix s q = true := by
  unfold HasPrefix at *
  rw [List.isPrefixOf_iff_prefix] at *
  exact h2.trans h1

/-- The scan up to and including a rule that matches does not depend on the
rules after it. -/
theorem scan_hit_anywhere {W : Type} (h : Host W) (w : W) (r : Request)
    (pre : List CorsRule) (rule : CorsRule) (post1 post2 : List CorsRule)
    (hm : HasPrefix (h.ToLower r.URL.Path) rule.Path = true) :
    ServeHTTP.scan h w r (pre ++ rule :: post1) = ServeHTTP.scan h w r (pre ++ rule :: post2) := by
  induction pre with
  | nil => simp [ServeHTTP.scan, hm]
  | cons x pre ih =>
    simp only [List.cons_append, ServeHTTP.scan]
    split
    · rfl
    · exact ih

/-- A rule that does not match can be removed from the scan. -/
theorem scan_remove_unmatched {W : Type} (h : Host W) (w : W) (r : Request)
    (pre : List CorsRule) (rule : CorsRule) (post : List CorsRule)
    (hm : HasPrefix (h.ToLower r.URL.Path) rule.Path = false) :
    ServeHTTP.scan h w r (pre ++ rule :: post) = ServeHTTP.scan h w r (pre ++ post) := by
  induction pre with
  | nil => simp [ServeHTTP.scan, hm]
  | cons x pre ih =>
    simp only [List.cons_append, ServeHTTP.scan]
    split
    · rfl
    · exact ih

/-- C18: when rule `ri` precedes rule `rj` in the list and the path of `ri` is
a prefix of the path of `rj`, every request path that matches `rj` matches
`ri`; the rule the scan stops at (the first that matches) is never at the
position of `rj`; and `ServeHTTP` behaves on every request as it does with
`rj` removed from the list.  The lower-casing is the host's `ToLower`, any
function of strings. -/
theorem shadowed_rule_never_dispatched {W : Type} (h : Host W)
    (pre mid post : List CorsRule) (ri rj : CorsRule) (w : W) (r : Request)
    (hsh : HasPrefix rj.Path ri.Path = true) :
    (HasPrefix (h.ToLower r.URL.Path) rj.Path = true →
        HasPrefix (h.ToLower r.URL.Path) ri.Path = true)
    ∧ (∀ (a : List CorsRule) (x : CorsRule) (b : List CorsRule),
        pre ++ ri :: (mid ++ rj :: post) = a ++ x :: b →
        (∀ y ∈ a, HasPrefix (h.ToLower r.URL.Path) y.Path = false) →
        HasPrefix (h.ToLower r.URL.Path) x.Path = true →
        a.length ≠ (pre ++ ri :: mid).length)
    ∧ ServeHTTP h ⟨pre ++ ri :: (mid ++ rj :: post)⟩ w r
        = ServeHTTP h ⟨pre ++ ri :: (mid ++ post)⟩ w r := by
  have htrans : HasPrefix (h.ToLower r.URL.Path) rj.Path = true →
      HasPrefix (h.ToLower r.URL.Path) ri.Path = true :=
    fun hj => hasPrefix_trans _ _ _ hj hsh
  refine ⟨htrans, ?_, ?_⟩
  · intro a x b hsplit hno hx hlen
    have hsplit2 : (pre ++ ri :: mid) ++ rj :: post = a ++ x :: b := by
      simpa using hsplit
    obtain ⟨ha, hxb⟩ := List.append_inj hsplit2 hlen.symm
    have hxj : rj = x := (List.cons.inj hxb).1
    have hri : HasPrefix (h.ToLower r.URL.Path) ri.Path = false :=
      hno ri (by rw [← ha]; simp)
    rw [← hxj] at hx
    rw [htrans hx] at hri
    cases hri
  · unfold ServeHTTP
    simp only
    cases hi : HasPrefix (h.ToLower r.URL.Path) ri.Path with
    | true => exact scan_hit_anywhere h w r pre ri _ _ hi
    | false =>
      have hj : HasPrefix (h.ToLower r.URL.Path) rj.Path = false := by
        cases hjv : HasPrefix (h.ToLower r.URL.Path) rj.Path with
        | false => rfl
        | true => rw [htrans hjv] at hi; cases hi
      have e1 : pre ++ ri :: (mid ++ rj :: post) = (pre ++ ri :: mid) ++ rj :: post := by simp
      have e2 : pre ++ ri :: (mid ++ post) = (pre ++ ri :: mid) ++ post := by simp
      rw [e1, e2]
      exact scan_remove_unmatched h w r _ rj post hj

/-- Witness of C18: with the rules `/` then `/api`, a request for `/api/users`
is handled with the configuration of `/`, as if the rule `/api` were absent. -/
theorem shadowed_rule_never_dispatched_witness :
    handled (ServeHTTP sampleHost
        ⟨[] ++ CorsRule.mk (confOf "a") "/" :: ([] ++ CorsRule.mk (confOf "b") "/api" :: [])⟩ []
        (request "GET" "/api/users")).calls = [confOf "a"]
    ∧ ServeHTTP sampleHost
        ⟨[] ++ CorsRule.mk (confOf "a") "/" :: ([] ++ CorsRule.mk (confOf "b") "/api" :: [])⟩ []
        (request "GET" "/api/users")
      = ServeHTTP sampleHost ⟨[] ++ CorsRule.mk (confOf "a") "/" :: ([] ++ [])⟩ []
        (request "GET" "/api/users") :=
  ⟨by decide,
   (shadowed_rule_never_dispatched sampleHost [] [] [] (CorsRule.mk (confOf "a") "/")
      (CorsRule.mk (confOf "b") "/api") [] (request "GET" "/api/users") (by decide)).2.2⟩

end Cors
